import Mathlib

/-!
# Verification of `conf/conf.go` (package `conf` of modd)

A shallow embedding of the configuration model: blocks, preps, silence
windows, the variable table, the derived include-pattern view and the bulk
merge of common excludes.

Conventions of the embedding

* A Go `string` is a finite sequence of bytes (`GoString`).
* A Go slice is either `nil` or a sequence of elements (`Slice`), a value.
  This is exact for the functions that do not write into the array behind a
  slice of strings.  `CommonExcludes` does: its `append` writes into spare
  capacity, which slices may share.  It is therefore modelled on slice headers
  and arrays (`StrSlice`, `Heap`, `MemConfig.CommonExcludes`), next to its
  counterpart on values (`Config.CommonExcludes`).
* A Go `map[string]V` is an association list without duplicate keys
  (`GoMap V`); a `nil` map is `none`.  The order in which `range` visits a map
  is not fixed by the language, so every function that ranges over a map takes
  the visiting order as an argument (`RangeOrder`).
* A method with a pointer receiver returns the new value of the receiver; an
  `error` result is `none` (nil) or `some msg`, where `msg` is the text built
  by `fmt.Errorf`.
* `time.Duration` is a signed 64-bit count of nanoseconds: an `Int` with the
  wrap-around made explicit; a `time.Time` is an instant counted in
  nanoseconds.  The standard library functions `time.ParseDuration` and
  `time.Now` are arguments (`TimePkg`, `now`).
-/

namespace Conf

/-! ## Strings -/

/-- A Go string: a sequence of bytes. -/
abbrev GoString := List UInt8

/-- The Go string denoted by a literal of the source (its UTF-8 bytes). -/
def str (s : String) : GoString := s.toUTF8.data.toList

/-- The comparison `a <= b` of Go strings: byte by byte, the first differing
byte decides, and a proper initial segment is smaller. -/
def GoString.le : GoString → GoString → Bool
  | [], _ => true
  | _ :: _, [] => false
  | a :: s, b :: t =>
    if a.toNat < b.toNat then true
    else if b.toNat < a.toNat then false
    else GoString.le s t

/-- The relation `a <= b` as a proposition. -/
def GoString.Le (a b : GoString) : Prop := GoString.le a b = true

instance (a b : GoString) : Decidable (GoString.Le a b) := by
  unfold GoString.Le; infer_instance

/-- The library call `sort.Strings`: it sorts into increasing order.  The
order is total and antisymmetric, so the sorted sequence is determined by the
elements alone (`sortStrings_unique`); insertion sort computes it. -/
def sortStrings (l : List GoString) : List GoString :=
  List.insertionSort GoString.Le l

/-! ## Slices and maps -/

/-- A Go slice: `nil`, or a sequence of elements. -/
inductive Slice (α : Type) where
  | nil : Slice α
  | mk (l : List α) : Slice α
  deriving DecidableEq, Repr

/-- The elements of a slice, in order (`nil` has none). -/
def Slice.elems {α : Type} : Slice α → List α
  | .nil => []
  | .mk l => l

/-- The value of `len(s)`. -/
def Slice.len {α : Type} (s : Slice α) : Nat := s.elems.length

/-- The value of `s == nil`. -/
def Slice.isNil {α : Type} : Slice α → Bool
  | .nil => true
  | .mk _ => false

/-- The value of `append(s, xs...)`: with nothing to add the slice itself is
returned (a `nil` slice stays `nil`). -/
def Slice.append {α : Type} (s : Slice α) (xs : List α) : Slice α :=
  match xs with
  | [] => s
  | _ :: _ => .mk (s.elems ++ xs)

/-- A non-nil Go map with string keys. -/
abbrev GoMap (V : Type) := AList (fun _ : GoString => V)

/-- The order in which one `range` loop visits the entries of a map: any
rearrangement of the entries. -/
structure RangeOrder (V : Type) where
  iter : List (Sigma fun _ : GoString => V) → List (Sigma fun _ : GoString => V)
  perm : ∀ l, (iter l).Perm l

/-- Visiting the entries in the order they are stored. -/
def RangeOrder.stored (V : Type) : RangeOrder V :=
  ⟨fun l => l, fun l => List.Perm.refl l⟩

/-- Visiting the entries in the reverse of the order they are stored. -/
def RangeOrder.reversed (V : Type) : RangeOrder V :=
  ⟨fun l => l.reverse, fun l => List.reverse_perm l⟩

/-- An `error` result: `none` is nil, `some msg` an error with text `msg`. -/
abbrev GoError := Option GoString

/-! ## Time -/

/-- The smallest `time.Duration`, `-1 << 63` nanoseconds. -/
def minDuration : Int := -(2 ^ 63)

/-- The largest `time.Duration`, `1<<63 - 1` nanoseconds. -/
def maxDuration : Int := 2 ^ 63 - 1

/-- The value of a signed 64-bit integer after wrap-around. -/
def wrapInt64 (x : Int) : Int := (x + 2 ^ 63) % 2 ^ 64 - 2 ^ 63

/-- The Go expression `-d` on a `time.Duration`. -/
def negDuration (d : Int) : Int := wrapInt64 (-d)

/-- The library call `t.Add(d)` on an instant counted in nanoseconds.  A
`time.Time` counts seconds in 64 bits, so for a reading of the clock and a
64-bit count of nanoseconds the sum is exact. -/
def timeAdd (t d : Int) : Int := t + d

/-- The part of package `time` the code calls: `ParseDuration`, whose results
are 64-bit durations. -/
structure TimePkg where
  ParseDuration : GoString → Except GoString Int
  inRange : ∀ s d, ParseDuration s = .ok d → minDuration ≤ d ∧ d ≤ maxDuration

/-! ## Data model -/

/-- A Daemon is a persistent process that is kept running.  The restart signal
is the number of the signal, `none` for a nil `os.Signal`. -/
structure Daemon where
  Command : GoString
  RestartSignal : Option Int
  deriving DecidableEq, Repr

/-- A Prep runs and terminates. -/
structure Prep where
  Command : GoString
  Onchange : Bool
  deriving DecidableEq, Repr

/-- Modelled from the spec: the declaration of type `Silence` is not in
`conf.go`; the spec gives it as `{ last: timestamp, duration: time-span }`,
and `addSilence` builds it as `Silence{last, duration}` from a `time.Time`
and a `time.Duration`. -/
structure Silence where
  last : Int
  duration : Int
  deriving DecidableEq, Repr

/-- Block is a match pattern and a set of specifications. -/
structure Block where
  Include : Slice GoString
  Exclude : Slice GoString
  NoCommonFilter : Bool
  InDir : GoString
  Daemons : Slice Daemon
  Preps : Slice Prep
  Silence : Option Silence
  deriving DecidableEq, Repr

/-- Config represents a complete configuration. -/
structure Config where
  Blocks : Slice Block
  /-- The field named variables in the source (a reserved word here). -/
  vars : Option (GoMap GoString)
  deriving DecidableEq

/-- The zero value `Config{}`. -/
def Config.zero : Config := ⟨.nil, none⟩

/-- The zero value `Block{}`. -/
def Block.zero : Block := ⟨.nil, .nil, false, [], .nil, .nil, none⟩

/-! ## Block construction -/

/-- The option loop of `addPrep` and of `addSilence`:
`for _, v := range options { switch v { case "+onchange": onchange = true;
default: return fmt.Errorf("unknown option: %s", v) } }`.
The result is the error returned from inside the loop, or the final value of
`onchange`. -/
def optionLoop : List GoString → Bool → Except GoString Bool
  | [], onchange => .ok onchange
  | v :: rest, _ =>
    if v = str "+onchange" then optionLoop rest true
    else .error (str "unknown option: " ++ v)

/-- The method `(b *Block) addPrep(command, options)`. -/
def Block.addPrep (b : Block) (command : GoString) (options : Slice GoString) :
    Block × GoError :=
  let b := if b.Preps.isNil then { b with Preps := .mk [] } else b
  match optionLoop options.elems false with
  | .error e => (b, some e)
  | .ok onchange =>
    let prep : Prep := ⟨command, onchange⟩
    ({ b with Preps := b.Preps.append [prep] }, none)

/-- The method `(b *Block) addSilence(value, options)`; `now` is the reading
of `time.Now()`. -/
def Block.addSilence (tp : TimePkg) (now : Int) (b : Block) (value : GoString)
    (options : Slice GoString) : Block × GoError :=
  match b.Silence with
  | some _ => (b, some (str "silence can only be used once per block"))
  | none =>
    match tp.ParseDuration value with
    | .error err =>
      (b, some (str "can\x27t parse duration \x60" ++ value ++ str "\x60: " ++ err))
    | .ok duration =>
      match optionLoop options.elems false with
      | .error e => (b, some e)
      | .ok onchange =>
        let last := now
        let last := if !onchange then timeAdd last (negDuration duration) else last
        ({ b with Silence := some ⟨last, duration⟩ }, none)

/-! ## Config construction and derivation -/

/-- The loops of `IncludePatterns` that fill `pmap`:
`for _, b := range c.Blocks { for _, p := range b.Include { pmap[p] = true } }`. -/
def IncludePatterns.pmap (blocks : List Block) : GoMap Bool :=
  blocks.foldl
    (fun pmap b => b.Include.elems.foldl (fun pmap p => pmap.insert p true) pmap) ∅

/-- The loop of `IncludePatterns` that copies the keys:
`for k := range pmap { paths[i] = k; i++ }`, over the keys in visiting order. -/
def IncludePatterns.fill : List GoString → Nat → List GoString → List GoString
  | [], _, paths => paths
  | k :: ks, i, paths => IncludePatterns.fill ks (i + 1) (paths.set i k)

/-- IncludePatterns retrieves all include patterns from all blocks. -/
def Config.IncludePatterns (ord : RangeOrder Bool) (c : Config) : Slice GoString :=
  let pmap := IncludePatterns.pmap c.Blocks.elems
  let paths := List.replicate pmap.entries.length ([] : GoString)
  let paths := IncludePatterns.fill ((ord.iter pmap.entries).map Sigma.fst) 0 paths
  .mk (sortStrings paths)

/-- The method `(c *Config) addBlock(b)`. -/
def Config.addBlock (c : Config) (b : Block) : Config :=
  let c := if c.Blocks.isNil then { c with Blocks := .mk [] } else c
  { c with Blocks := c.Blocks.append [b] }

/-- The Go expression `c.variables[key]` with its `ok` flag: `none` when the
key is absent (also for a nil map). -/
def Config.lookupVariable (c : Config) (key : GoString) : Option GoString :=
  match c.vars with
  | none => none
  | some m => m.lookup key

/-- The method `(c *Config) addVariable(key, value)`; `m` is the map held by
`c.variables` after the first statement, which replaces a nil map by an empty
one. -/
def Config.addVariable (c : Config) (key value : GoString) : Config × GoError :=
  let m : GoMap GoString := match c.vars with
    | none => ∅
    | some m => m
  match m.lookup key with
  | some _ =>
    ({ c with vars := some m },
      some (str "variable " ++ key ++ str " shadows previous declaration"))
  | none => ({ c with vars := some (m.insert key value) }, none)

/-- GetVariables returns a copy of the Variables map. -/
def Config.GetVariables (ord : RangeOrder GoString) (c : Config) : GoMap GoString :=
  let entries := match c.vars with
    | none => []
    | some m => ord.iter m.entries
  entries.foldl (fun n e => n.insert e.1 e.2) ∅

/-- The body of the loop of `CommonExcludes` on values, where a slice holds
its elements itself:
`if !b.NoCommonFilter { b.Exclude = append(b.Exclude, excludes...) }`.
The body with its writes to arrays is `MemCommonExcludes.body`. -/
def CommonExcludes.body (excludes : Slice GoString) (b : Block) : Block :=
  if !b.NoCommonFilter then
    { b with Exclude := b.Exclude.append excludes.elems }
  else b

/-- One turn of the loop of `CommonExcludes` on values, at index `i`:
`b := c.Blocks[i]`, the body, then `c.Blocks[i] = b`. -/
def CommonExcludes.step (excludes : Slice GoString) (blocks : List Block) (i : Nat) :
    List Block :=
  match blocks.get? i with
  | none => blocks
  | some b => blocks.set i (CommonExcludes.body excludes b)

/-- The function `CommonExcludes` on values, where a slice holds its elements
itself.  It is what the code computes when no Exclude slice that is appended
to has spare capacity (`MemConfig.CommonExcludes_view`); the code itself, with
its writes to arrays that slices may share, is `MemConfig.CommonExcludes`. -/
def Config.CommonExcludes (c : Config) (excludes : Slice GoString) : Config :=
  match c.Blocks with
  | .nil => c
  | .mk blocks =>
    let blocks := (List.range blocks.length).foldl (CommonExcludes.step excludes) blocks
    { c with Blocks := .mk blocks }

/-! ## String slices in memory

`CommonExcludes` appends to the Exclude slices, and the `append` of Go writes
into the array behind a slice when the slice has spare capacity.  Two slices
of strings can stand on one array, so such a write can be seen through another
slice.  The definitions below model a slice of strings as Go stores it, a
header pointing into an array, and `CommonExcludes` on headers and arrays. -/

/-- The arrays of strings allocated so far; an array is named by its position. -/
abbrev Heap := List (List GoString)

/-- A value of type `[]string` as stored: `nil`, or a header with the array it
points into, the offset of its first element there, its length and its
capacity. -/
inductive StrSlice where
  | nil : StrSlice
  | ref (arr off len cap : Nat) : StrSlice
  deriving DecidableEq, Repr

/-- The value of `len(s)`. -/
def StrSlice.len : StrSlice → Nat
  | .nil => 0
  | .ref _ _ len _ => len

/-- The value of `cap(s)`. -/
def StrSlice.cap : StrSlice → Nat
  | .nil => 0
  | .ref _ _ _ cap => cap

/-- The elements of a slice, read from its array. -/
def Heap.read (h : Heap) : StrSlice → List GoString
  | .nil => []
  | .ref arr off len _ => ((h.getD arr []).drop off).take len

/-- A header is valid in a heap when its array is allocated and holds the
whole capacity of the slice. -/
def StrSlice.validIn (h : Heap) : StrSlice → Bool
  | .nil => true
  | .ref arr off len cap =>
    decide (arr < h.length) && decide (len ≤ cap) &&
      decide (off + cap ≤ (h.getD arr []).length)

/-- The slice as a value: `nil`, or its elements. -/
def StrSlice.view (h : Heap) (s : StrSlice) : Slice GoString :=
  match s with
  | .nil => .nil
  | .ref _ _ _ _ => .mk (h.read s)

/-- Storing the strings `xs` in an array from position `pos` on. -/
def Heap.store : List GoString → Nat → List GoString → List GoString
  | arr, _, [] => arr
  | arr, pos, x :: xs => Heap.store (arr.set pos x) (pos + 1) xs

/-- The capacity `append` gives to a new array, from the old capacity and the
number of elements needed; the language only promises that it suffices. -/
structure GrowPolicy where
  newcap : Nat → Nat → Nat
  enough : ∀ cap need, need ≤ newcap cap need

/-- The policy that allocates exactly what is needed. -/
def GrowPolicy.exact : GrowPolicy := ⟨fun _ need => need, fun _ _ => Nat.le_refl _⟩

/-- The policy that allocates twice what is needed. -/
def GrowPolicy.double : GrowPolicy :=
  ⟨fun _ need => 2 * need, fun _ need => Nat.le_mul_of_pos_left need (by decide)⟩

/-- The value of `append(s, xs...)` for strings, with its effect on the
arrays.  With nothing to add the slice itself is returned.  When the new
elements fit in the capacity they are stored in the array of `s`, behind its
last element.  Otherwise a new array is allocated, which receives the
elements of `s` followed by `xs`. -/
def StrSlice.append (g : GrowPolicy) (h : Heap) (s : StrSlice) (xs : List GoString) :
    Heap × StrSlice :=
  match xs with
  | [] => (h, s)
  | _ :: _ =>
    let need := s.len + xs.length
    let grown : Heap × StrSlice :=
      (h ++ [h.read s ++ xs ++ List.replicate (g.newcap s.cap need - need) []],
        .ref h.length 0 need (g.newcap s.cap need))
    match s with
    | .nil => grown
    | .ref arr off len cap =>
      if len + xs.length ≤ cap then
        (h.set arr (Heap.store (h.getD arr []) (off + len) xs),
          .ref arr off (len + xs.length) cap)
      else grown

/-- A Block as stored: its Include and Exclude are headers. -/
structure MemBlock where
  Include : StrSlice
  Exclude : StrSlice
  NoCommonFilter : Bool
  InDir : GoString
  Daemons : Slice Daemon
  Preps : Slice Prep
  Silence : Option Silence
  deriving DecidableEq, Repr

/-- A Config as stored. -/
structure MemConfig where
  Blocks : Slice MemBlock
  vars : Option (GoMap GoString)
  deriving DecidableEq

/-- The Block as a value, its slices read from the heap. -/
def MemBlock.view (h : Heap) (b : MemBlock) : Block :=
  { Include := b.Include.view h
    Exclude := b.Exclude.view h
    NoCommonFilter := b.NoCommonFilter
    InDir := b.InDir
    Daemons := b.Daemons
    Preps := b.Preps
    Silence := b.Silence }

/-- The Config as a value, its slices read from the heap. -/
def MemConfig.view (h : Heap) (c : MemConfig) : Config :=
  { Blocks := match c.Blocks with
      | .nil => .nil
      | .mk blocks => .mk (blocks.map (MemBlock.view h))
    vars := c.vars }

/-- The body of the loop of `CommonExcludes` on the copy `b` of a block, with
its effect on the arrays:
`if !b.NoCommonFilter { b.Exclude = append(b.Exclude, excludes...) }`. -/
def MemCommonExcludes.body (g : GrowPolicy) (excludes : StrSlice) (h : Heap)
    (b : MemBlock) : Heap × MemBlock :=
  if !b.NoCommonFilter then
    let r := StrSlice.append g h b.Exclude (h.read excludes)
    (r.1, { b with Exclude := r.2 })
  else (h, b)

/-- One turn of the loop of `CommonExcludes`, at index `i`:
`b := c.Blocks[i]`, the body, then `c.Blocks[i] = b`. -/
def MemCommonExcludes.step (g : GrowPolicy) (excludes : StrSlice)
    (st : Heap × List MemBlock) (i : Nat) : Heap × List MemBlock :=
  match st.2.get? i with
  | none => st
  | some b =>
    let r := MemCommonExcludes.body g excludes st.1 b
    (r.1, st.2.set i r.2)

/-- CommonExcludes extends all blocks that require it with a common exclusion
set.  This is the function on the stored Config; the result is the new heap
and the new Config. -/
def MemConfig.CommonExcludes (g : GrowPolicy) (h : Heap) (c : MemConfig)
    (excludes : StrSlice) : Heap × MemConfig :=
  match c.Blocks with
  | .nil => (h, c)
  | .mk blocks =>
    let r := (List.range blocks.length).foldl (MemCommonExcludes.step g excludes) (h, blocks)
    (r.1, { c with Blocks := .mk r.2 })

/-- The blocks of a stored Config, one after the other, through the loop body
of `CommonExcludes`: the heap left by one block is the heap the next one
starts from. -/
def MemCommonExcludes.run (g : GrowPolicy) (excludes : StrSlice) :
    Heap → List MemBlock → Heap × List MemBlock
  | h, [] => (h, [])
  | h, b :: bs =>
    let r := MemCommonExcludes.body g excludes h b
    let rs := MemCommonExcludes.run g excludes r.1 bs
    (rs.1, r.2 :: rs.2)

/-- A stored Block is valid in a heap when its two string slices are. -/
def MemBlock.validIn (h : Heap) (b : MemBlock) : Bool :=
  b.Include.validIn h && b.Exclude.validIn h

/-- A stored Block for which `CommonExcludes` cannot write into an existing
array: it is opted out of the common filter, or its Exclude has no spare
capacity. -/
def MemBlock.noSpare (b : MemBlock) : Bool :=
  b.NoCommonFilter || decide (b.Exclude.len = b.Exclude.cap)

/-- The heap `h2` keeps the arrays of `h1`: each array allocated in `h1` is
still allocated in `h2`, with the same length; its elements may differ. -/
def Heap.keeps (h1 h2 : Heap) : Prop :=
  h1.length ≤ h2.length ∧ ∀ a, a < h1.length → (h2.getD a []).length = (h1.getD a []).length

/-! ## Call sequences -/

/-- A sequence of calls `addVariable(k, v)`, made in list order: the final
Config and the error result of each call. -/
def Config.addVariables (c : Config) : List (GoString × GoString) → Config × List GoError
  | [] => (c, [])
  | kv :: rest =>
    let r := c.addVariable kv.1 kv.2
    let rs := Config.addVariables r.1 rest
    (rs.1, r.2 :: rs.2)

/-- A sequence of calls `addPrep(command, options)`, made in list order: the
final Block and the error result of each call. -/
def Block.addPreps (b : Block) : List (GoString × Slice GoString) → Block × List GoError
  | [] => (b, [])
  | c :: rest =>
    let r := b.addPrep c.1 c.2
    let rs := Block.addPreps r.1 rest
    (rs.1, r.2 :: rs.2)

/-- A sequence of calls `addBlock(b)`, made in list order. -/
def Config.addBlocks (c : Config) (bs : List Block) : Config :=
  bs.foldl Config.addBlock c

/-! ## Sample values -/

/-- A block with include patterns `b`, `a`, exclude `a`, taking part in the
common filter. -/
def sampleBlockA : Block :=
  { Block.zero with Include := .mk [str "b", str "a"], Exclude := .mk [str "a"] }

/-- A block with include patterns `a`, `c`, exclude `b`, opted out of the
common filter. -/
def sampleBlockB : Block :=
  { Block.zero with
    Include := .mk [str "a", str "c"], Exclude := .mk [str "b"], NoCommonFilter := true }

/-- A Config in which the variable `x` has been declared with value `1`. -/
def sampleConfigX : Config := (Config.zero.addVariable (str "x") (str "1")).1

/-- Three declarations, the third of which repeats the key of the first. -/
def sampleCalls : List (GoString × GoString) :=
  [(str "x", str "1"), (str "y", str "2"), (str "x", str "3")]

/-- A sample of `time.ParseDuration`: the results the library gives for four
literals (ten seconds, minus ten seconds, the smallest duration of all, and
the word `soon`, which is no duration); other strings are not used and are
rejected here. -/
def sampleParseDuration (s : GoString) : Except GoString Int :=
  if s = str "10s" then .ok 10000000000
  else if s = str "-10s" then .ok (-10000000000)
  else if s = str "-2562047h47m16.854775808s" then .ok (-9223372036854775808)
  else if s = str "soon" then .error (str "time: invalid duration \x22soon\x22")
  else .error (str "time: invalid duration")

/-- The sample of `time.ParseDuration` as a `TimePkg`. -/
def sampleTime : TimePkg where
  ParseDuration := sampleParseDuration
  inRange := by
    intro s d h
    unfold sampleParseDuration at h
    split at h
    · cases h; decide
    · split at h
      · cases h; decide
      · split at h
        · cases h; decide
        · split at h <;> cases h

/-- Three calls of `addPrep`: one without options, one with an unknown
option, one with "+onchange". -/
def samplePrepCalls : List (GoString × Slice GoString) :=
  [(str "make build", .nil), (str "make lint", .mk [str "+bogus"]),
    (str "make test", .mk [str "+onchange"])]

/-- The zero value `Block{}` as stored. -/
def MemBlock.zero : MemBlock := ⟨.nil, .nil, false, [], .nil, .nil, none⟩

/-- A heap with the array of `base := make([]string, 2, 4)` holding `a`, `b`,
and the array of the one-element slice `x`. -/
def sampleHeap4 : Heap := [[str "a", str "b", [], []], [str "x"]]

/-- Two blocks taking part in the common filter whose Exclude slices are
`base[:1]` and `base[:2]` of the array of `sampleHeap4`. -/
def sampleConfig4 : MemConfig :=
  ⟨.mk [{ MemBlock.zero with Exclude := .ref 0 0 1 4 },
      { MemBlock.zero with Exclude := .ref 0 0 2 4 }], none⟩

/-- The slice holding the one exclude `x`, in `sampleHeap4` and in
`sampleHeap2`. -/
def sampleExcludesX : StrSlice := .ref 1 0 1 1

/-- A heap with the array of `base := make([]string, 2, 8)` holding `a`, `b`,
the array of the slice `x`, `y`, and the array of the slice `x`, `y`, `x`,
`y`. -/
def sampleHeap8 : Heap :=
  [[str "a", str "b", [], [], [], [], [], []], [str "x", str "y"],
    [str "x", str "y", str "x", str "y"]]

/-- Two blocks taking part in the common filter whose Exclude slices are
`base[:1]` and `base[:2]` of the first array of `sampleHeap8`. -/
def sampleConfig8 : MemConfig :=
  ⟨.mk [{ MemBlock.zero with Exclude := .ref 0 0 1 8 },
      { MemBlock.zero with Exclude := .ref 0 0 2 8 }], none⟩

/-- The slice holding the excludes `x`, `y`, in `sampleHeap8`. -/
def sampleExcludesXY : StrSlice := .ref 1 0 2 2

/-- The slice holding the excludes `x`, `y`, `x`, `y`, in `sampleHeap8`. -/
def sampleExcludesXYXY : StrSlice := .ref 2 0 4 4

/-- A heap with the array of `base := []string{a, b}` and the array of the
one-element slice `x`. -/
def sampleHeap2 : Heap := [[str "a", str "b"], [str "x"]]

/-- One block taking part in the common filter, with Exclude `base[:1]` and
Include `base[1:2]` of the array of `sampleHeap2`. -/
def sampleConfig2 : MemConfig :=
  ⟨.mk [{ MemBlock.zero with Include := .ref 0 1 1 1, Exclude := .ref 0 0 1 2 }], none⟩

/-- The two sample blocks, in one order. -/
def sampleConfigAB : Config := ⟨.mk [sampleBlockA, sampleBlockB], none⟩

/-- The two sample blocks, in the other order. -/
def sampleConfigBA : Config := ⟨.mk [sampleBlockB, sampleBlockA], none⟩

end Conf

namespace Conf

/-! ## The order on strings -/

theorem GoString.le_refl (a : GoString) : GoString.le a a = true := by
  induction a with
  | nil => rfl
  | cons x s ih => simp [GoString.le, ih]

theorem GoString.le_total (a b : GoString) :
    GoString.le a b = true ∨ GoString.le b a = true := by
  induction a generalizing b with
  | nil => left; rfl
  | cons x s ih =>
    cases b with
    | nil => right; rfl
    | cons y t =>
      simp only [GoString.le]
      by_cases h1 : x.toNat < y.toNat
      · simp [h1]
      · by_cases h2 : y.toNat < x.toNat
        · simp [h2]
        · simp only [h1, h2, if_false]
          exact ih t

theorem GoString.le_antisymm (a b : GoString) (hab : GoString.le a b = true)
    (hba : GoString.le b a = true) : a = b := by
  induction a generalizing b with
  | nil =>
    cases b with
    | nil => rfl
    | cons y t => simp [GoString.le] at hba
  | cons x s ih =>
    cases b with
    | nil => simp [GoString.le] at hab
    | cons y t =>
      simp only [GoString.le] at hab hba
      by_cases h1 : x.toNat < y.toNat
      · have h2 : ¬ y.toNat < x.toNat := by omega
        simp [h1, h2] at hba
      · by_cases h2 : y.toNat < x.toNat
        · simp [h1, h2] at hab
        · simp only [h1, h2, if_false] at hab hba
          have hxy : x = y := by
            cases x with
            | mk vx =>
              cases y with
              | mk vy =>
                have : vx = vy := by
                  apply BitVec.eq_of_toNat_eq
                  simp only [UInt8.toNat] at h1 h2
                  omega
                rw [this]
          rw [hxy, ih t hab hba]

theorem GoString.le_trans (a b c : GoString) (hab : GoString.le a b = true)
    (hbc : GoString.le b c = true) : GoString.le a c = true := by
  induction a generalizing b c with
  | nil => rfl
  | cons x s ih =>
    cases b with
    | nil => simp [GoString.le] at hab
    | cons y t =>
      cases c with
      | nil => simp [GoString.le] at hbc
      | cons z u =>
        simp only [GoString.le] at hab hbc ⊢
        by_cases h1 : x.toNat < y.toNat
        · by_cases h3 : y.toNat < z.toNat
          · have : x.toNat < z.toNat := by omega
            simp [this]
          · by_cases h4 : z.toNat < y.toNat
            · simp [h3, h4] at hbc
            · have : x.toNat < z.toNat := by omega
              simp [this]
        · by_cases h2 : y.toNat < x.toNat
          · simp [h1, h2] at hab
          · simp only [h1, h2, if_false] at hab
            by_cases h3 : y.toNat < z.toNat
            · have : x.toNat < z.toNat := by omega
              simp [this]
            · by_cases h4 : z.toNat < y.toNat
              · simp [h3, h4] at hbc
              · simp only [h3, h4, if_false] at hbc
                have h5 : ¬ x.toNat < z.toNat := by omega
                have h6 : ¬ z.toNat < x.toNat := by omega
                simp only [h5, h6, if_false]
                exact ih t u hab hbc

theorem byte_eq_of_toNat_eq (x y : UInt8) (h : x.toNat = y.toNat) : x = y := by
  cases x with
  | mk vx =>
    cases y with
    | mk vy =>
      have : vx = vy := BitVec.eq_of_toNat_eq h
      rw [this]

/-- The comparison `GoString.le` is the lexicographic order of the byte
sequences, as defined in the library (`List.Lex`), made reflexive. -/
theorem GoString.le_iff_lex (a b : GoString) :
    GoString.le a b = true ↔
      a = b ∨ List.Lex (fun x y : UInt8 => x.toNat < y.toNat) a b := by
  induction a generalizing b with
  | nil =>
    cases b with
    | nil => simp [GoString.le]
    | cons y t => simp [GoString.le, List.Lex.nil]
  | cons x s ih =>
    cases b with
    | nil =>
      simp only [GoString.le, Bool.false_eq_true, false_iff, not_or]
      refine ⟨fun h => List.noConfusion h, fun h => ?_⟩
      cases h
    | cons y t =>
      simp only [GoString.le]
      by_cases h1 : x.toNat < y.toNat
      · simp only [h1, if_true, true_iff]
        exact Or.inr (List.Lex.rel h1)
      · by_cases h2 : y.toNat < x.toNat
        · simp only [h1, h2, if_false, if_true, Bool.false_eq_true, false_iff, not_or]
          constructor
          · intro h
            have hxy : x = y := (List.cons.inj h).1
            rw [hxy] at h2
            exact Nat.lt_irrefl _ h2
          · intro h
            cases h with
            | cons h => exact Nat.lt_irrefl _ h2
            | rel h => exact h1 h
        · simp only [h1, h2, if_false]
          have hxy : x = y := byte_eq_of_toNat_eq x y (by omega)
          subst hxy
          rw [ih t]
          constructor
          · rintro (h | h)
            · exact Or.inl (by rw [h])
            · exact Or.inr (List.Lex.cons h)
          · rintro (h | h)
            · exact Or.inl (List.cons.inj h).2
            · cases h with
              | cons h => exact Or.inr h
              | rel h => exact absurd h (Nat.lt_irrefl _)

instance : IsTotal GoString GoString.Le := ⟨GoString.le_total⟩

instance : IsTrans GoString GoString.Le := ⟨GoString.le_trans⟩

instance : IsAntisymm GoString GoString.Le := ⟨GoString.le_antisymm⟩

theorem sortStrings_sorted (l : List GoString) :
    List.Sorted GoString.Le (sortStrings l) :=
  List.sorted_insertionSort GoString.Le l

theorem sortStrings_perm (l : List GoString) : (sortStrings l).Perm l :=
  List.perm_insertionSort GoString.Le l

/-- Any increasing rearrangement of `l` is `sortStrings l`: the result of
`sort.Strings` does not depend on the sorting algorithm. -/
theorem sortStrings_unique (l r : List GoString) (hp : r.Perm l)
    (hs : List.Sorted GoString.Le r) : r = sortStrings l :=
  List.eq_of_perm_of_sorted (hp.trans (sortStrings_perm l).symm) hs
    (sortStrings_sorted l)

/-! ## IncludePatterns -/

theorem IncludePatterns.fill_eq (ks : List GoString) (i : Nat) (paths : List GoString)
    (h : paths.length = i + ks.length) :
    IncludePatterns.fill ks i paths = paths.take i ++ ks := by
  induction ks generalizing i paths with
  | nil =>
    have : paths.length ≤ i := by simp at h; omega
    simp [IncludePatterns.fill, List.take_of_length_le this]
  | cons k ks ih =>
    have hi : i < paths.length := by simp at h; omega
    have hlen : (paths.set i k).length = (i + 1) + ks.length := by
      simp at h ⊢; omega
    rw [IncludePatterns.fill, ih (i + 1) (paths.set i k) hlen]
    have : (paths.set i k).take (i + 1) = paths.take i ++ [k] := by
      rw [List.set_eq_take_append_cons_drop, if_pos hi]
      have hl : (List.take i paths).length = i := by
        rw [List.length_take]; omega
      rw [List.take_append_eq_append_take, hl]
      simp
    rw [this]
    simp

theorem IncludePatterns.insert_mem (l : List GoString) (m : GoMap Bool) (q : GoString) :
    q ∈ l.foldl (fun pmap p => pmap.insert p true) m ↔ q ∈ m ∨ q ∈ l := by
  induction l generalizing m with
  | nil => simp
  | cons p l ih =>
    rw [List.foldl_cons, ih, AList.mem_insert, List.mem_cons]
    tauto

theorem IncludePatterns.pmap_mem_aux (blocks : List Block) (m : GoMap Bool) (q : GoString) :
    q ∈ blocks.foldl
        (fun pmap b => b.Include.elems.foldl (fun pmap p => pmap.insert p true) pmap) m ↔
      q ∈ m ∨ ∃ b ∈ blocks, q ∈ b.Include.elems := by
  induction blocks generalizing m with
  | nil => simp
  | cons b bs ih =>
    rw [List.foldl_cons, ih, IncludePatterns.insert_mem]
    simp only [List.mem_cons, exists_eq_or_imp]
    tauto

theorem IncludePatterns.pmap_mem (blocks : List Block) (q : GoString) :
    q ∈ IncludePatterns.pmap blocks ↔ ∃ b ∈ blocks, q ∈ b.Include.elems := by
  unfold IncludePatterns.pmap
  rw [IncludePatterns.pmap_mem_aux]
  simp

/-- The value of `IncludePatterns`: the sorted keys of `pmap`. -/
theorem Config.IncludePatterns_eq (ord : RangeOrder Bool) (c : Config) :
    (c.IncludePatterns ord).elems =
      sortStrings ((ord.iter (IncludePatterns.pmap c.Blocks.elems).entries).map Sigma.fst) := by
  unfold Config.IncludePatterns
  simp only [Slice.elems]
  rw [IncludePatterns.fill_eq]
  · simp
  · simp [(ord.perm _).length_eq]

theorem Config.IncludePatterns_perm_keys (ord : RangeOrder Bool) (c : Config) :
    (c.IncludePatterns ord).elems.Perm (IncludePatterns.pmap c.Blocks.elems).keys := by
  rw [Config.IncludePatterns_eq]
  exact (sortStrings_perm _).trans ((ord.perm _).map Sigma.fst)

theorem Config.IncludePatterns_sorted (ord : RangeOrder Bool) (c : Config) :
    List.Sorted GoString.Le (c.IncludePatterns ord).elems := by
  rw [Config.IncludePatterns_eq]
  exact sortStrings_sorted _

theorem Config.IncludePatterns_nodup (ord : RangeOrder Bool) (c : Config) :
    (c.IncludePatterns ord).elems.Nodup :=
  (Config.IncludePatterns_perm_keys ord c).nodup_iff.mpr (AList.keys_nodup _)

theorem Config.IncludePatterns_mem (ord : RangeOrder Bool) (c : Config) (p : GoString) :
    p ∈ (c.IncludePatterns ord).elems ↔ ∃ b ∈ c.Blocks.elems, p ∈ b.Include.elems := by
  rw [(Config.IncludePatterns_perm_keys ord c).mem_iff]
  exact (AList.mem_keys).trans (IncludePatterns.pmap_mem _ p)

theorem Config.IncludePatterns_isMk (ord : RangeOrder Bool) (c : Config) :
    c.IncludePatterns ord = .mk (c.IncludePatterns ord).elems := by
  unfold Config.IncludePatterns
  simp [Slice.elems]

/-- Two configurations with the same set of include patterns have the same
`IncludePatterns`, whatever the visiting orders of the pattern map. -/
theorem Config.IncludePatterns_congr (ord1 ord2 : RangeOrder Bool) (c1 c2 : Config)
    (h : ∀ p, (∃ b ∈ c1.Blocks.elems, p ∈ b.Include.elems) ↔
      (∃ b ∈ c2.Blocks.elems, p ∈ b.Include.elems)) :
    c1.IncludePatterns ord1 = c2.IncludePatterns ord2 := by
  rw [Config.IncludePatterns_isMk ord1 c1, Config.IncludePatterns_isMk ord2 c2]
  congr 1
  apply List.eq_of_perm_of_sorted (r := GoString.Le)
  · rw [List.perm_ext_iff_of_nodup (Config.IncludePatterns_nodup ord1 c1)
      (Config.IncludePatterns_nodup ord2 c2)]
    intro p
    rw [Config.IncludePatterns_mem, Config.IncludePatterns_mem]
    exact h p
  · exact Config.IncludePatterns_sorted ord1 c1
  · exact Config.IncludePatterns_sorted ord2 c2

/-- C1: for every Config and every visiting order of the pattern map,
`IncludePatterns()` is sorted in ascending byte-wise order, has no duplicates,
and contains a string exactly when it occurs in the Include list of some
Block; it is empty when there are no Blocks or all Include lists are empty. -/
theorem Config.IncludePatterns_sorted_nodup_union (ord : RangeOrder Bool) (c : Config) :
    List.Sorted GoString.Le (c.IncludePatterns ord).elems ∧
    (c.IncludePatterns ord).elems.Nodup ∧
    (∀ p, p ∈ (c.IncludePatterns ord).elems ↔
      ∃ b ∈ c.Blocks.elems, p ∈ b.Include.elems) ∧
    ((c.Blocks.elems = [] ∨ ∀ b ∈ c.Blocks.elems, b.Include.elems = []) →
      (c.IncludePatterns ord).elems = []) := by
  refine ⟨Config.IncludePatterns_sorted ord c, Config.IncludePatterns_nodup ord c,
    Config.IncludePatterns_mem ord c, ?_⟩
  intro h
  apply List.eq_nil_iff_forall_not_mem.mpr
  intro p hp
  obtain ⟨b, hb, hpb⟩ := (Config.IncludePatterns_mem ord c p).mp hp
  rcases h with h | h
  · rw [h] at hb; exact absurd hb (List.not_mem_nil b)
  · rw [h b hb] at hpb; exact absurd hpb (List.not_mem_nil p)

/-- An instance of C1: the sample blocks give the patterns `a`, `b`, `c`, and
a Config without Blocks gives none. -/
theorem Config.IncludePatterns_sorted_nodup_union_witness :
    (sampleConfigAB.IncludePatterns (RangeOrder.reversed Bool)).elems =
      [str "a", str "b", str "c"] ∧
    (Config.zero.Blocks.elems = [] ∨ ∀ b ∈ Config.zero.Blocks.elems, b.Include.elems = []) ∧
    (Config.zero.IncludePatterns (RangeOrder.stored Bool)).elems = [] :=
  ⟨by decide, Or.inl rfl,
    (Config.IncludePatterns_sorted_nodup_union (RangeOrder.stored Bool) Config.zero).2.2.2
      (Or.inl rfl)⟩

/-- C2: `IncludePatterns()` is order-independent and deterministic: two
Configs whose Block lists are rearrangements of one another, and more
generally two Configs whose Include lists have the same set of elements,
give exactly the same sequence, whatever the visiting orders of the
intermediate pattern map. -/
theorem Config.IncludePatterns_order_independent (ord1 ord2 : RangeOrder Bool)
    (c1 c2 : Config) :
    (c1.Blocks.elems.Perm c2.Blocks.elems →
      c1.IncludePatterns ord1 = c2.IncludePatterns ord2) ∧
    ((∀ p, (∃ b ∈ c1.Blocks.elems, p ∈ b.Include.elems) ↔
        (∃ b ∈ c2.Blocks.elems, p ∈ b.Include.elems)) →
      c1.IncludePatterns ord1 = c2.IncludePatterns ord2) := by
  refine ⟨fun hp => ?_, Config.IncludePatterns_congr ord1 ord2 c1 c2⟩
  apply Config.IncludePatterns_congr
  intro p
  constructor
  · rintro ⟨b, hb, hpb⟩; exact ⟨b, hp.mem_iff.mp hb, hpb⟩
  · rintro ⟨b, hb, hpb⟩; exact ⟨b, hp.mem_iff.mpr hb, hpb⟩

/-- An instance of C2: the two sample blocks in either order, with different
visiting orders of the map. -/
theorem Config.IncludePatterns_order_independent_witness :
    sampleConfigAB.Blocks.elems.Perm sampleConfigBA.Blocks.elems ∧
    sampleConfigAB.IncludePatterns (RangeOrder.stored Bool) =
      sampleConfigBA.IncludePatterns (RangeOrder.reversed Bool) :=
  ⟨List.Perm.swap sampleBlockB sampleBlockA [],
    (Config.IncludePatterns_order_independent (RangeOrder.stored Bool)
      (RangeOrder.reversed Bool) sampleConfigAB sampleConfigBA).1
      (List.Perm.swap sampleBlockB sampleBlockA [])⟩

/-! ## The variable table -/

theorem GetVariables.foldl_lookup {V : Type} (l : List (Sigma fun _ : GoString => V))
    (nd : l.NodupKeys) (init : GoMap V) (q : GoString) :
    (l.foldl (fun n e => n.insert e.1 e.2) init).lookup q =
      match List.dlookup q l with
      | some v => some v
      | none => init.lookup q := by
  induction l generalizing init with
  | nil => simp
  | cons e l ih =>
    obtain ⟨k, v⟩ := e
    rw [List.nodupKeys_cons] at nd
    rw [List.foldl_cons, ih nd.2]
    by_cases hq : q = k
    · subst hq
      have hnone : List.dlookup q l = none := List.dlookup_eq_none.mpr nd.1
      simp [hnone, List.dlookup_cons_eq, AList.lookup_insert]
    · have hne : k ≠ q := fun h => hq h.symm
      rw [List.dlookup_cons_ne l ⟨k, v⟩ hq]
      simp [AList.lookup_insert_ne hq]

/-- The copy made by `GetVariables` has the entries of the variable table,
whatever the visiting order. -/
theorem Config.GetVariables_lookup (ord : RangeOrder GoString) (c : Config) (q : GoString) :
    (c.GetVariables ord).lookup q = c.lookupVariable q := by
  unfold Config.GetVariables Config.lookupVariable
  cases hv : c.vars with
  | none => simp
  | some m =>
    simp only []
    have nd : (ord.iter m.entries).NodupKeys :=
      (List.perm_nodupKeys (ord.perm m.entries)).mpr m.nodupKeys
    rw [GetVariables.foldl_lookup _ nd]
    have : List.dlookup q (ord.iter m.entries) = List.dlookup q m.entries :=
      List.perm_dlookup q nd m.nodupKeys (ord.perm m.entries)
    rw [this]
    have h2 : List.dlookup q m.entries = m.lookup q := rfl
    rw [h2]
    cases m.lookup q <;> simp

theorem Config.addVariable_error (c : Config) (k v : GoString) :
    (c.addVariable k v).2 = none ↔ c.lookupVariable k = none := by
  unfold Config.addVariable Config.lookupVariable
  cases hv : c.vars with
  | none => simp
  | some m =>
    cases hl : m.lookup k <;> simp [hv, hl]

theorem Config.addVariable_lookup (c : Config) (k v q : GoString) :
    (c.addVariable k v).1.lookupVariable q =
      match c.lookupVariable q with
      | some old => some old
      | none => if q = k then some v else none := by
  unfold Config.addVariable Config.lookupVariable
  cases hv : c.vars with
  | none =>
    have h0 : (∅ : GoMap GoString).lookup k = none := AList.lookup_empty k
    simp only [Option.isNone_none, if_true, h0]
    by_cases hq : q = k
    · subst hq; rw [AList.lookup_insert]; simp
    · rw [AList.lookup_insert_ne hq]; simp [hq]
  | some m =>
    simp only [hv, Option.isNone_some, Bool.false_eq_true, if_false]
    cases hl : m.lookup k with
    | some old =>
      simp only [hv]
      cases hq : m.lookup q with
      | some w => rfl
      | none =>
        have hne : q ≠ k := by
          intro h; rw [h, hl] at hq; exact Option.noConfusion hq
        simp [hne]
    | none =>
      simp only []
      by_cases hq : q = k
      · subst hq; rw [AList.lookup_insert, hl]; simp
      · rw [AList.lookup_insert_ne hq]
        cases m.lookup q <;> simp [hq]

theorem Config.addVariable_Blocks (c : Config) (k v : GoString) :
    (c.addVariable k v).1.Blocks = c.Blocks := by
  unfold Config.addVariable
  simp only []
  split <;> rfl

theorem Config.addVariable_lookup_eq_none (c : Config) (k v q : GoString) :
    (c.addVariable k v).1.lookupVariable q = none ↔
      c.lookupVariable q = none ∧ q ≠ k := by
  rw [Config.addVariable_lookup]
  cases c.lookupVariable q with
  | some old => simp
  | none => by_cases hq : q = k <;> simp [hq]

theorem Config.addVariables_length (c : Config) (calls : List (GoString × GoString)) :
    (c.addVariables calls).2.length = calls.length := by
  induction calls generalizing c with
  | nil => rfl
  | cons kv rest ih => simp [Config.addVariables, ih]

theorem Config.addVariables_lookup (c : Config) (calls : List (GoString × GoString))
    (q : GoString) :
    (c.addVariables calls).1.lookupVariable q =
      match c.lookupVariable q with
      | some old => some old
      | none => (calls.find? (fun kv => kv.1 = q)).map Prod.snd := by
  induction calls generalizing c with
  | nil => simp only [Config.addVariables]; cases c.lookupVariable q <;> simp
  | cons kv rest ih =>
    simp only [Config.addVariables]
    rw [ih, Config.addVariable_lookup, List.find?_cons]
    cases c.lookupVariable q with
    | some old => rfl
    | none =>
      by_cases hq : q = kv.1
      · have : kv.1 = q := hq.symm
        simp [hq]
      · have : ¬ kv.1 = q := fun h => hq h.symm
        simp [hq, this]

theorem Config.addVariables_error (c : Config) (calls : List (GoString × GoString))
    (i : Nat) (hi : i < calls.length) :
    (c.addVariables calls).2[i]? = some none ↔
      c.lookupVariable calls[i].1 = none ∧
        calls[i].1 ∉ (calls.take i).map Prod.fst := by
  induction calls generalizing c i with
  | nil => simp at hi
  | cons kv rest ih =>
    cases i with
    | zero =>
      simp only [Config.addVariables, List.getElem?_cons_zero, List.getElem_cons_zero,
        List.take_zero, List.map_nil, List.not_mem_nil, not_false_eq_true, and_true,
        Option.some.injEq]
      exact Config.addVariable_error c kv.1 kv.2
    | succ i =>
      have hi2 : i < rest.length := by simpa using hi
      simp only [Config.addVariables, List.getElem?_cons_succ, List.getElem_cons_succ,
        List.take_succ_cons, List.map_cons, List.mem_cons, not_or]
      rw [ih (c.addVariable kv.1 kv.2).1 i hi2, Config.addVariable_lookup_eq_none]
      tauto

theorem not_mem_take_map_fst (calls : List (GoString × GoString)) (i : Nat)
    (hi : i < calls.length) (k : GoString) :
    k ∉ (calls.take i).map Prod.fst ↔ ∀ j (hj : j < i), calls[j].1 ≠ k := by
  constructor
  · intro h j hj heq
    apply h
    rw [List.mem_map]
    refine ⟨calls[j], ?_, heq⟩
    rw [List.mem_take_iff_getElem]
    exact ⟨j, by simp; omega, rfl⟩
  · intro h hmem
    rw [List.mem_map] at hmem
    obtain ⟨kv, hkv, hk⟩ := hmem
    rw [List.mem_take_iff_getElem] at hkv
    obtain ⟨j, hj, hjeq⟩ := hkv
    have hji : j < i := by simp at hj; omega
    apply h j hji
    rw [hjeq]; exact hk

theorem Config.zero_lookupVariable (q : GoString) : Config.zero.lookupVariable q = none :=
  rfl

/-- C3: if `k` is already a key of the variable table, `addVariable(k, v)`
fails with the error that names `k`, the Config is left as it was (Blocks and
variables), and `GetVariables()` after the failed call has the same entries as
before it, the earlier value of `k` included, whatever the visiting orders. -/
theorem Config.addVariable_duplicate (c : Config) (k v old : GoString)
    (h : c.lookupVariable k = some old) :
    c.addVariable k v =
      (c, some (str "variable " ++ k ++ str " shadows previous declaration")) ∧
    (∀ ord1 ord2 q, ((c.addVariable k v).1.GetVariables ord1).lookup q =
      (c.GetVariables ord2).lookup q) ∧
    (∀ ord, ((c.addVariable k v).1.GetVariables ord).lookup k = some old) := by
  have hc : c.addVariable k v =
      (c, some (str "variable " ++ k ++ str " shadows previous declaration")) := by
    unfold Config.addVariable
    unfold Config.lookupVariable at h
    cases hv : c.vars with
    | none => rw [hv] at h; exact Option.noConfusion h
    | some m =>
      rw [hv] at h
      have h2 : m.lookup k = some old := h
      have hc : ({ c with vars := some m } : Config) = c := by
        cases c
        simp only [Config.mk.injEq, true_and]
        exact hv.symm
      simp only [h2, hc]
  refine ⟨hc, ?_, ?_⟩
  · intro ord1 ord2 q
    rw [hc, Config.GetVariables_lookup, Config.GetVariables_lookup]
  · intro ord
    rw [hc, Config.GetVariables_lookup]
    exact h

/-- An instance of C3: declaring `x` again, with another value, in a Config
where `x` is `1`. -/
theorem Config.addVariable_duplicate_witness :
    sampleConfigX.lookupVariable (str "x") = some (str "1") ∧
    sampleConfigX.addVariable (str "x") (str "2") =
      (sampleConfigX, some (str "variable x shadows previous declaration")) :=
  ⟨by decide,
    (Config.addVariable_duplicate sampleConfigX (str "x") (str "2") (str "1")
      (by decide)).1⟩

/-- C4: `addVariable(k, v)` fails exactly when `k` is already present; for a
key that is absent (also in a Config whose table was never initialised, and
for any `k` and `v`) it succeeds, afterwards `GetVariables()` maps `k` to `v`
and agrees with the previous `GetVariables()` on every other key, and the
Blocks list is unchanged. -/
theorem Config.addVariable_fresh (c : Config) (k v : GoString) :
    ((c.addVariable k v).2 ≠ none ↔ c.lookupVariable k ≠ none) ∧
    (c.lookupVariable k = none →
      (c.addVariable k v).2 = none ∧
      (c.addVariable k v).1.Blocks = c.Blocks ∧
      (∀ ord, ((c.addVariable k v).1.GetVariables ord).lookup k = some v) ∧
      (∀ ord1 ord2 q, q ≠ k →
        ((c.addVariable k v).1.GetVariables ord1).lookup q =
          (c.GetVariables ord2).lookup q)) := by
  refine ⟨not_congr (Config.addVariable_error c k v), fun h => ⟨?_, ?_, ?_, ?_⟩⟩
  · exact (Config.addVariable_error c k v).mpr h
  · exact Config.addVariable_Blocks c k v
  · intro ord
    rw [Config.GetVariables_lookup, Config.addVariable_lookup, h]
    simp
  · intro ord1 ord2 q hq
    rw [Config.GetVariables_lookup, Config.GetVariables_lookup,
      Config.addVariable_lookup]
    cases c.lookupVariable q <;> simp [hq]

/-- An instance of C4: the empty key with the empty value, in the zero
Config. -/
theorem Config.addVariable_fresh_witness :
    Config.zero.lookupVariable [] = none ∧
    (Config.zero.addVariable [] []).2 = none ∧
    ((Config.zero.addVariable [] []).1.GetVariables
      (RangeOrder.stored GoString)).lookup [] = some [] :=
  ⟨rfl, ((Config.addVariable_fresh Config.zero [] []).2 rfl).1,
    ((Config.addVariable_fresh Config.zero [] []).2 rfl).2.2.1
      (RangeOrder.stored GoString)⟩

/-- C5: first declaration wins.  For every sequence of `addVariable` calls on
the zero Config, the i-th call succeeds exactly when its key differs from the
key of every earlier call, and the final `GetVariables()` has the attempted
keys as its domain and maps each key to the value of the first call that used
it. -/
theorem Config.addVariables_first_wins (calls : List (GoString × GoString))
    (ord : RangeOrder GoString) :
    (Config.zero.addVariables calls).2.length = calls.length ∧
    (∀ i (hi : i < calls.length),
      (Config.zero.addVariables calls).2[i]? = some none ↔
        ∀ j (hj : j < i), calls[j].1 ≠ calls[i].1) ∧
    (∀ q, ((Config.zero.addVariables calls).1.GetVariables ord).lookup q ≠ none ↔
      q ∈ calls.map Prod.fst) ∧
    (∀ q, ((Config.zero.addVariables calls).1.GetVariables ord).lookup q =
      (calls.find? (fun kv => kv.1 = q)).map Prod.snd) := by
  have hlook : ∀ q, ((Config.zero.addVariables calls).1.GetVariables ord).lookup q =
      (calls.find? (fun kv => kv.1 = q)).map Prod.snd := by
    intro q
    rw [Config.GetVariables_lookup, Config.addVariables_lookup,
      Config.zero_lookupVariable]
  refine ⟨Config.addVariables_length _ calls, ?_, ?_, hlook⟩
  · intro i hi
    rw [Config.addVariables_error _ calls i hi, Config.zero_lookupVariable,
      not_mem_take_map_fst calls i hi]
    simp
  · intro q
    rw [hlook q]
    simp only [ne_eq, Option.map_eq_none', List.find?_eq_none, decide_eq_true_eq,
      not_forall, List.mem_map]
    constructor
    · rintro ⟨kv, hkv, hq⟩
      exact ⟨kv, hkv, not_not.mp hq⟩
    · rintro ⟨kv, hkv, hq⟩
      exact ⟨kv, hkv, not_not.mpr hq⟩

/-- An instance of C5: of three declarations `x = 1`, `y = 2`, `x = 3` the
third fails and `x` stays `1`. -/
theorem Config.addVariables_first_wins_witness :
    (Config.zero.addVariables sampleCalls).2 =
      [none, none, some (str "variable x shadows previous declaration")] ∧
    ((Config.zero.addVariables sampleCalls).1.GetVariables
      (RangeOrder.reversed GoString)).lookup (str "x") = some (str "1") :=
  ⟨by decide,
    ((Config.addVariables_first_wins sampleCalls
      (RangeOrder.reversed GoString)).2.2.2 (str "x")).trans (by decide)⟩

/-! ## Options of preps and silences -/

theorem optionLoop_all (l : List GoString) (acc : Bool)
    (h : ∀ o ∈ l, o = str "+onchange") :
    optionLoop l acc = .ok (acc || decide (str "+onchange" ∈ l)) := by
  induction l generalizing acc with
  | nil => simp [optionLoop]
  | cons v rest ih =>
    have hv : v = str "+onchange" := h v (List.mem_cons_self v rest)
    have hrest : ∀ o ∈ rest, o = str "+onchange" :=
      fun o ho => h o (List.mem_cons_of_mem v ho)
    rw [optionLoop, if_pos hv, ih true hrest]
    simp [hv]

theorem optionLoop_bad (l : List GoString) (acc : Bool) (t : GoString)
    (h : l.find? (fun o => decide (o ≠ str "+onchange")) = some t) :
    optionLoop l acc = .error (str "unknown option: " ++ t) := by
  induction l generalizing acc with
  | nil => simp at h
  | cons v rest ih =>
    rw [List.find?_cons] at h
    by_cases hv : v = str "+onchange"
    · have hd : decide (v ≠ str "+onchange") = false := by simp [hv]
      rw [hd] at h
      rw [optionLoop, if_pos hv]
      exact ih true h
    · have hd : decide (v ≠ str "+onchange") = true := by simp [hv]
      rw [hd] at h
      cases h
      rw [optionLoop, if_neg hv]

theorem optionLoop_find_none (l : List GoString)
    (h : l.find? (fun o => decide (o ≠ str "+onchange")) = none) :
    ∀ o ∈ l, o = str "+onchange" := by
  intro o ho
  have := List.find?_eq_none.mp h o ho
  simpa using this

theorem optionLoop_error_iff (l : List GoString) (acc : Bool) :
    (∃ e, optionLoop l acc = .error e) ↔ ∃ o ∈ l, o ≠ str "+onchange" := by
  cases hf : l.find? (fun o => decide (o ≠ str "+onchange")) with
  | none =>
    have hall := optionLoop_find_none l hf
    rw [optionLoop_all l acc hall]
    constructor
    · rintro ⟨e, he⟩; cases he
    · rintro ⟨o, ho, hne⟩; exact absurd (hall o ho) hne
  | some t =>
    rw [optionLoop_bad l acc t hf]
    constructor
    · intro _
      have hmem := List.mem_of_find?_eq_some hf
      have hp := List.find?_some hf
      exact ⟨t, hmem, by simpa using hp⟩
    · intro _; exact ⟨_, rfl⟩

theorem Block.addSilence_of_set (tp : TimePkg) (now : Int) (b : Block)
    (value : GoString) (options : Slice GoString) (s : Conf.Silence)
    (h : b.Silence = some s) :
    b.addSilence tp now value options =
      (b, some (str "silence can only be used once per block")) := by
  unfold Block.addSilence
  rw [h]

theorem Block.addSilence_ok_isSome (tp : TimePkg) (now : Int) (b : Block)
    (value : GoString) (options : Slice GoString)
    (h : (b.addSilence tp now value options).2 = none) :
    ∃ s, (b.addSilence tp now value options).1.Silence = some s := by
  unfold Block.addSilence at h ⊢
  cases hs : b.Silence with
  | some s0 => rw [hs] at h; simp at h
  | none =>
    rw [hs] at h
    simp only at h ⊢
    cases hp : tp.ParseDuration value with
    | error err => rw [hp] at h; simp at h
    | ok d =>
      rw [hp] at h
      simp only at h ⊢
      cases ho : optionLoop options.elems false with
      | error e => rw [ho] at h; simp at h
      | ok onchange => exact ⟨_, rfl⟩

theorem negDuration_eq (d : Int) (h1 : minDuration < d) (h2 : d ≤ maxDuration) :
    negDuration d = -d := by
  unfold negDuration wrapInt64
  unfold minDuration at h1
  unfold maxDuration at h2
  omega

/-- C6: on a Block whose Silence is already set, `addSilence` fails with the
error "silence can only be used once per block" for every value and every
options list, and the Block (its Silence included) is exactly as before;
hence after a successful `addSilence` a second call fails and the Silence is
the one set by the first call. -/
theorem Block.addSilence_once (tp1 tp2 : TimePkg) (now1 now2 : Int) (b : Block)
    (value1 value2 : GoString) (options1 options2 : Slice GoString) :
    (∀ s, b.Silence = some s →
      b.addSilence tp2 now2 value2 options2 =
        (b, some (str "silence can only be used once per block"))) ∧
    ((b.addSilence tp1 now1 value1 options1).2 = none →
      (b.addSilence tp1 now1 value1 options1).1.addSilence tp2 now2 value2 options2 =
        ((b.addSilence tp1 now1 value1 options1).1,
          some (str "silence can only be used once per block"))) := by
  refine ⟨fun s hs => Block.addSilence_of_set tp2 now2 b value2 options2 s hs, ?_⟩
  intro hok
  obtain ⟨s, hs⟩ := Block.addSilence_ok_isSome tp1 now1 b value1 options1 hok
  exact Block.addSilence_of_set tp2 now2 _ value2 options2 s hs

/-- An instance of C6: a silence of ten seconds, then a second declaration
with an unknown option; the Silence is still the first one. -/
theorem Block.addSilence_once_witness :
    (Block.zero.addSilence sampleTime 50 (str "10s") .nil).2 = none ∧
    ((Block.zero.addSilence sampleTime 50 (str "10s") .nil).1.addSilence sampleTime 70
        (str "1h") (.mk [str "+bogus"])).2 =
      some (str "silence can only be used once per block") ∧
    ((Block.zero.addSilence sampleTime 50 (str "10s") .nil).1.addSilence sampleTime 70
        (str "1h") (.mk [str "+bogus"])).1.Silence =
      some ⟨50 - 10000000000, 10000000000⟩ :=
  ⟨by decide,
    congrArg Prod.snd ((Block.addSilence_once sampleTime sampleTime 50 70 Block.zero
      (str "10s") (str "1h") .nil (.mk [str "+bogus"])).2 (by decide)),
    (congrArg (fun r => r.1.Silence) ((Block.addSilence_once sampleTime sampleTime 50 70
      Block.zero (str "10s") (str "1h") .nil (.mk [str "+bogus"])).2 (by decide))).trans
      (by decide)⟩

/-- C7, amended: on a Block with no Silence set, for a value that parses to a
duration `d` and options that are all "+onchange", with clock reading `now`,
`addSilence` succeeds, changes the Silence only and sets its duration to `d`;
`last` is `now` when the options contain "+onchange", and `now - d` when they
do not and `d` is not the smallest duration (whose negation overflows). -/
theorem Block.addSilence_sets (tp : TimePkg) (now : Int) (b : Block)
    (value : GoString) (d : Int) (options : Slice GoString)
    (hs : b.Silence = none) (hp : tp.ParseDuration value = .ok d)
    (ho : ∀ o ∈ options.elems, o = str "+onchange") :
    (b.addSilence tp now value options).2 = none ∧
    ∃ s, (b.addSilence tp now value options).1 = { b with Silence := some s } ∧
      s.duration = d ∧
      (str "+onchange" ∈ options.elems → s.last = now) ∧
      (str "+onchange" ∉ options.elems → d ≠ minDuration → s.last = now - d) := by
  have hr := tp.inRange value d hp
  unfold Block.addSilence
  rw [hs]
  simp only [hp, optionLoop_all options.elems false ho, Bool.false_or]
  refine ⟨trivial, _, rfl, rfl, ?_, ?_⟩
  · intro hmem
    simp [hmem]
  · intro hmem hd
    have hlt : minDuration < d := lt_of_le_of_ne hr.1 (Ne.symm hd)
    simp [hmem, timeAdd, negDuration_eq d hlt hr.2]
    omega

/-- An instance of C7: `addSilence("10s", [])` at time 50 gives duration ten
seconds and `last` ten seconds before 50; with "+onchange" it gives 50. -/
theorem Block.addSilence_sets_witness :
    (Block.zero.addSilence sampleTime 50 (str "10s") (.mk [])).1.Silence =
      some ⟨50 - 10000000000, 10000000000⟩ ∧
    (Block.zero.addSilence sampleTime 50 (str "10s") (.mk [str "+onchange"])).1.Silence =
      some ⟨50, 10000000000⟩ ∧
    (Block.zero.addSilence sampleTime 50 (str "10s") (.mk [str "+onchange"])).2 = none :=
  ⟨by decide, by decide,
    (Block.addSilence_sets sampleTime 50 Block.zero (str "10s") 10000000000
      (.mk [str "+onchange"]) rfl rfl (by decide)).1⟩

/-- The claim C7 as stated fails for the smallest duration: the literal
`-2562047h47m16.854775808s` parses to `-1 << 63` nanoseconds, its negation
wraps around to itself, and without "+onchange" the call at time 0 sets
`last` to `0 + d`, which is not `0 - d`. -/
theorem Block.addSilence_min_duration_counterexample :
    Block.zero.Silence = none ∧
    sampleTime.ParseDuration (str "-2562047h47m16.854775808s") = .ok minDuration ∧
    (∀ o ∈ (Slice.nil : Slice GoString).elems, o = str "+onchange") ∧
    (Block.zero.addSilence sampleTime 0 (str "-2562047h47m16.854775808s") .nil).1.Silence =
      some ⟨minDuration, minDuration⟩ ∧
    (Block.zero.addSilence sampleTime 0 (str "-2562047h47m16.854775808s") .nil).1.Silence ≠
      some ⟨0 - minDuration, minDuration⟩ := by
  refine ⟨rfl, rfl, ?_, by decide, by decide⟩
  intro o ho
  exact absurd ho (List.not_mem_nil o)

/-! ## CommonExcludes -/

theorem CommonExcludes.foldl_eq (excludes : Slice GoString) (blocks : List Block)
    (n : Nat) (hn : n ≤ blocks.length) :
    (List.range n).foldl (CommonExcludes.step excludes) blocks =
      (blocks.take n).map (CommonExcludes.body excludes) ++ blocks.drop n := by
  induction n with
  | zero => simp
  | succ n ih =>
    have hlt : n < blocks.length := hn
    have hlen : ((blocks.take n).map (CommonExcludes.body excludes)).length = n := by
      rw [List.length_map, List.length_take]; omega
    rw [List.range_succ, List.foldl_append, ih (Nat.le_of_lt hlt)]
    simp only [List.foldl_cons, List.foldl_nil, CommonExcludes.step]
    have hget : ((blocks.take n).map (CommonExcludes.body excludes) ++ blocks.drop n).get? n =
        some blocks[n] := by
      rw [List.get?_eq_getElem?, List.getElem?_append_right (by omega), hlen,
        Nat.sub_self, List.getElem?_drop, Nat.add_zero, List.getElem?_eq_getElem hlt]
    rw [hget]
    simp only []
    rw [List.set_append, if_neg (by omega), hlen, Nat.sub_self,
      List.drop_eq_getElem_cons hlt, List.set_cons_zero, List.take_succ,
      List.getElem?_eq_getElem hlt]
    simp only [Option.toList, List.map_append, List.map_cons, List.map_nil,
      List.append_assoc, List.cons_append, List.nil_append]

/-- The loop of `CommonExcludes` applies its body to every block. -/
theorem Config.CommonExcludes_eq (c : Config) (excludes : Slice GoString) :
    c.CommonExcludes excludes =
      match c.Blocks with
      | .nil => c
      | .mk blocks => { c with Blocks := .mk (blocks.map (CommonExcludes.body excludes)) } := by
  unfold Config.CommonExcludes
  cases hb : c.Blocks with
  | nil => rfl
  | mk blocks =>
    simp only []
    rw [CommonExcludes.foldl_eq excludes blocks blocks.length (Nat.le_refl _)]
    simp

theorem Config.CommonExcludes_elems (c : Config) (excludes : Slice GoString) :
    (c.CommonExcludes excludes).Blocks.elems =
      c.Blocks.elems.map (CommonExcludes.body excludes) := by
  rw [Config.CommonExcludes_eq]
  cases hb : c.Blocks with
  | nil => simp [hb, Slice.elems]
  | mk blocks => simp [Slice.elems]

theorem Slice.append_append {α : Type} (s : Slice α) (xs ys : List α) :
    (s.append xs).append ys = s.append (xs ++ ys) := by
  cases xs with
  | nil => rfl
  | cons x xs =>
    cases ys with
    | nil => simp [Slice.append]
    | cons y ys => simp [Slice.append, Slice.elems]

theorem Slice.elems_append {α : Type} (s : Slice α) (xs : List α) :
    (s.append xs).elems = s.elems ++ xs := by
  cases xs with
  | nil => simp [Slice.append]
  | cons x xs => simp [Slice.append, Slice.elems]

theorem CommonExcludes.body_body (e1 e2 : Slice GoString) (b : Block) :
    CommonExcludes.body e2 (CommonExcludes.body e1 b) =
      CommonExcludes.body (e1.append e2.elems) b := by
  unfold CommonExcludes.body
  cases hf : b.NoCommonFilter with
  | true => simp [hf]
  | false => simp [hf, Slice.append_append, Slice.elems_append]

theorem Config.CommonExcludes_at (c : Config) (excludes : Slice GoString)
    (i : Nat) (b : Block) (hb : c.Blocks.elems[i]? = some b) :
    (c.CommonExcludes excludes).Blocks.elems[i]? =
      some (CommonExcludes.body excludes b) := by
  rw [Config.CommonExcludes_elems, List.getElem?_map, hb]; rfl

theorem CommonExcludes.body_Exclude (excludes : Slice GoString) (b : Block)
    (hf : b.NoCommonFilter = false) :
    (CommonExcludes.body excludes b).Exclude.elems = b.Exclude.elems ++ excludes.elems := by
  simp [CommonExcludes.body, hf, Slice.elems_append]

/-- On values: `Config.CommonExcludes` keeps the length of the Blocks list; at
every index a Block with NoCommonFilter false has its old Exclude followed by
`excludes`, and a Block with NoCommonFilter true is unchanged. -/
theorem Config.CommonExcludes_blocks (c : Config) (excludes : Slice GoString) :
    (c.CommonExcludes excludes).Blocks.len = c.Blocks.len ∧
    ∀ (i : Nat) (b : Block), c.Blocks.elems[i]? = some b →
      ∃ b1, (c.CommonExcludes excludes).Blocks.elems[i]? = some b1 ∧
        (b.NoCommonFilter = false →
          b1.Exclude.elems = b.Exclude.elems ++ excludes.elems) ∧
        (b.NoCommonFilter = true → b1 = b) := by
  constructor
  · simp [Slice.len, Config.CommonExcludes_elems]
  · intro i b hb
    refine ⟨CommonExcludes.body excludes b,
      Config.CommonExcludes_at c excludes i b hb,
      CommonExcludes.body_Exclude excludes b, ?_⟩
    intro hf
    simp [CommonExcludes.body, hf]

theorem Config.CommonExcludes_congr (c : Config) (e1 e2 : Slice GoString)
    (h : e1.elems = e2.elems) : c.CommonExcludes e1 = c.CommonExcludes e2 := by
  have hb : CommonExcludes.body e1 = CommonExcludes.body e2 := by
    funext b
    simp [CommonExcludes.body, h]
  rw [Config.CommonExcludes_eq c e1, Config.CommonExcludes_eq c e2, hb]

/-- On values: two applications of `Config.CommonExcludes` with `excludes`
give what one application gives with `excludes` followed by `excludes`. -/
theorem Config.CommonExcludes_twice (c : Config) (excludes : Slice GoString) :
    (∀ twice : Slice GoString, twice.elems = excludes.elems ++ excludes.elems →
      (c.CommonExcludes excludes).CommonExcludes excludes = c.CommonExcludes twice) ∧
    ∀ (i : Nat) (b : Block), c.Blocks.elems[i]? = some b → b.NoCommonFilter = false →
      ∃ b2, ((c.CommonExcludes excludes).CommonExcludes excludes).Blocks.elems[i]? =
          some b2 ∧
        b2.Exclude.elems = b.Exclude.elems ++ excludes.elems ++ excludes.elems := by
  have h1 : (c.CommonExcludes excludes).CommonExcludes excludes =
      c.CommonExcludes (excludes.append excludes.elems) := by
    rw [Config.CommonExcludes_eq (c.CommonExcludes excludes),
      Config.CommonExcludes_eq c excludes,
      Config.CommonExcludes_eq c (excludes.append excludes.elems)]
    cases hb : c.Blocks with
    | nil => simp [hb]
    | mk blocks => simp [CommonExcludes.body_body]
  constructor
  · intro twice htwice
    rw [h1]
    apply Config.CommonExcludes_congr
    rw [Slice.elems_append, htwice]
  · intro i b hb hf
    refine ⟨CommonExcludes.body (excludes.append excludes.elems) b, ?_, ?_⟩
    · rw [h1]
      exact Config.CommonExcludes_at c _ i b hb
    · rw [CommonExcludes.body_Exclude _ b hf, Slice.elems_append, List.append_assoc]

/-! ## addPrep -/

theorem Block.addPrep_error (b : Block) (command : GoString) (options : Slice GoString) :
    (b.addPrep command options).2 =
      match optionLoop options.elems false with
      | .error e => some e
      | .ok _ => none := by
  unfold Block.addPrep
  cases optionLoop options.elems false <;> rfl

/-- C10: `addPrep(command, options)` fails exactly when the options contain a
token other than "+onchange"; the error is then "unknown option: " followed
by the first such token in list order, and no Prep is appended: the Preps
sequence has the same elements (and length) as before, also when "+onchange"
precedes the bad token. -/
theorem Block.addPrep_unknown_option (b : Block) (command : GoString)
    (options : Slice GoString) :
    ((b.addPrep command options).2 ≠ none ↔
      ∃ o ∈ options.elems, o ≠ str "+onchange") ∧
    (∀ t, options.elems.find? (fun o => decide (o ≠ str "+onchange")) = some t →
      (b.addPrep command options).2 = some (str "unknown option: " ++ t) ∧
      (b.addPrep command options).1.Preps.elems = b.Preps.elems ∧
      (b.addPrep command options).1.Preps.len = b.Preps.len) := by
  constructor
  · rw [← optionLoop_error_iff options.elems false, Block.addPrep_error]
    cases optionLoop options.elems false with
    | error e => simp
    | ok v => simp
  · intro t ht
    have hbad := optionLoop_bad options.elems false t ht
    have hel : (b.addPrep command options).1.Preps.elems = b.Preps.elems := by
      unfold Block.addPrep
      rw [hbad]
      cases hp : b.Preps with
      | nil => simp [Slice.isNil, Slice.elems]
      | mk l => simp [Slice.isNil, hp]
    refine ⟨?_, hel, ?_⟩
    · rw [Block.addPrep_error, hbad]
    · unfold Slice.len; rw [hel]

/-- An instance of C10: `addPrep("make build", ["+bogus"])` fails naming
"+bogus", and so does the options list "+onchange", "+bogus"; no Prep is
added. -/
theorem Block.addPrep_unknown_option_witness :
    (Slice.mk [str "+onchange", str "+bogus"]).elems.find?
        (fun o => decide (o ≠ str "+onchange")) = some (str "+bogus") ∧
    (Block.zero.addPrep (str "make build") (.mk [str "+bogus"])).2 =
      some (str "unknown option: +bogus") ∧
    (Block.zero.addPrep (str "make build") (.mk [str "+bogus"])).1.Preps.len = 0 ∧
    (Block.zero.addPrep (str "make build") (.mk [str "+onchange", str "+bogus"])).2 =
      some (str "unknown option: +bogus") ∧
    (Block.zero.addPrep (str "make build")
      (.mk [str "+onchange", str "+bogus"])).1.Preps.elems = [] :=
  ⟨by decide, by decide, by decide,
    ((Block.addPrep_unknown_option Block.zero (str "make build")
      (.mk [str "+onchange", str "+bogus"])).2 (str "+bogus") (by decide)).1.trans
      (by decide),
    ((Block.addPrep_unknown_option Block.zero (str "make build")
      (.mk [str "+onchange", str "+bogus"])).2 (str "+bogus") (by decide)).2.1⟩

theorem Block.addPrep_of_ok (b : Block) (command : GoString) (options : Slice GoString)
    (onchange : Bool) (h : optionLoop options.elems false = .ok onchange) :
    b.addPrep command options =
      ({ b with Preps := .mk (b.Preps.elems ++ [⟨command, onchange⟩]) }, none) := by
  unfold Block.addPrep
  rw [h]
  cases hp : b.Preps with
  | nil => simp [Slice.isNil, Slice.append, Slice.elems]
  | mk l => simp [Slice.isNil, Slice.append, Slice.elems, hp]

theorem Block.addPrep_of_error (b : Block) (command : GoString) (options : Slice GoString)
    (e : GoString) (h : optionLoop options.elems false = .error e) :
    b.addPrep command options = ({ b with Preps := .mk b.Preps.elems }, some e) := by
  unfold Block.addPrep
  rw [h]
  cases hp : b.Preps with
  | nil => simp [Slice.isNil, Slice.elems]
  | mk l =>
    simp only [Slice.isNil, Slice.elems, Bool.false_eq_true, if_false]
    rw [← hp]

theorem optionLoop_all_isEmpty (l : List GoString)
    (h : ∀ o ∈ l, o = str "+onchange") :
    optionLoop l false = .ok (!l.isEmpty) := by
  rw [optionLoop_all l false h]
  cases l with
  | nil => simp
  | cons v rest =>
    have hv : v = str "+onchange" := h v (List.mem_cons_self v rest)
    simp [hv]

theorem Block.addPreps_all_ok (b : Block) (calls : List (GoString × Slice GoString))
    (h : ∀ c ∈ calls, ∀ o ∈ c.2.elems, o = str "+onchange") :
    (b.addPreps calls).1.Preps.elems =
        b.Preps.elems ++ calls.map (fun c => (⟨c.1, !c.2.elems.isEmpty⟩ : Prep)) ∧
      ∀ e ∈ (b.addPreps calls).2, e = none := by
  induction calls generalizing b with
  | nil => simp [Block.addPreps]
  | cons c rest ih =>
    have hc := optionLoop_all_isEmpty c.2.elems (h c (List.mem_cons_self c rest))
    have hrest : ∀ c2 ∈ rest, ∀ o ∈ c2.2.elems, o = str "+onchange" :=
      fun c2 hc2 => h c2 (List.mem_cons_of_mem c hc2)
    simp only [Block.addPreps]
    rw [Block.addPrep_of_ok b c.1 c.2 _ hc]
    obtain ⟨ih1, ih2⟩ := ih _ hrest
    constructor
    · rw [ih1]
      simp [Slice.elems]
    · intro e he
      rcases List.mem_cons.mp he with he | he
      · exact he
      · exact ih2 e he

theorem Block.addPreps_command (b : Block) (calls : List (GoString × Slice GoString))
    (p : Prep) (hp : p ∈ (b.addPreps calls).1.Preps.elems) :
    p ∈ b.Preps.elems ∨ ∃ c ∈ calls, p.Command = c.1 := by
  induction calls generalizing b with
  | nil => left; simpa [Block.addPreps] using hp
  | cons c rest ih =>
    simp only [Block.addPreps] at hp
    cases ho : optionLoop c.2.elems false with
    | error e =>
      rw [Block.addPrep_of_error b c.1 c.2 e ho] at hp
      rcases ih _ hp with h | ⟨c2, hc2, heq⟩
      · left; simpa [Slice.elems] using h
      · right; exact ⟨c2, List.mem_cons_of_mem c hc2, heq⟩
    | ok onchange =>
      rw [Block.addPrep_of_ok b c.1 c.2 onchange ho] at hp
      rcases ih _ hp with h | ⟨c2, hc2, heq⟩
      · simp only [Slice.elems, List.mem_append, List.mem_singleton] at h
        rcases h with h | h
        · left; exact h
        · right; exact ⟨c, List.mem_cons_self c rest, by rw [h]⟩
      · right; exact ⟨c2, List.mem_cons_of_mem c hc2, heq⟩

/-- C11: when every option equals "+onchange", `addPrep(command, options)`
succeeds on every Block (a nil Preps list included); the new Preps sequence is
the old one followed by one Prep with that command, whose Onchange is true
exactly when the options are non-empty, and no other field changes.  After a
sequence of such calls the Preps are the old ones followed by the commands in
call order. -/
theorem Block.addPrep_appends (b : Block) (command : GoString) (options : Slice GoString)
    (ho : ∀ o ∈ options.elems, o = str "+onchange") :
    b.addPrep command options =
      ({ b with Preps := .mk (b.Preps.elems ++ [⟨command, !options.elems.isEmpty⟩]) },
        none) ∧
    ((!options.elems.isEmpty) = true ↔ str "+onchange" ∈ options.elems) ∧
    ∀ calls : List (GoString × Slice GoString),
      (∀ c ∈ calls, ∀ o ∈ c.2.elems, o = str "+onchange") →
      (∀ e ∈ (b.addPreps calls).2, e = none) ∧
      (b.addPreps calls).1.Preps.elems.map Prep.Command =
        b.Preps.elems.map Prep.Command ++ calls.map Prod.fst := by
  refine ⟨Block.addPrep_of_ok b command options _ (optionLoop_all_isEmpty _ ho), ?_, ?_⟩
  · cases hl : options.elems with
    | nil => simp
    | cons v rest =>
      have hv : v = str "+onchange" := ho v (by rw [hl]; exact List.mem_cons_self v rest)
      simp [hv]
  · intro calls hcalls
    obtain ⟨h1, h2⟩ := Block.addPreps_all_ok b calls hcalls
    refine ⟨h2, ?_⟩
    rw [h1, List.map_append, List.map_map]
    rfl

/-- An instance of C11: `addPrep("make test", ["+onchange"])` on the zero
Block, whose Preps list is nil. -/
theorem Block.addPrep_appends_witness :
    (∀ o ∈ (Slice.mk [str "+onchange"]).elems, o = str "+onchange") ∧
    Block.zero.addPrep (str "make test") (.mk [str "+onchange"]) =
      ({ Block.zero with Preps := .mk [⟨str "make test", true⟩] }, none) :=
  ⟨by decide,
    (Block.addPrep_appends Block.zero (str "make test") (.mk [str "+onchange"])
      (by decide)).1⟩

/-! ## addSilence -/

/-- What a successful `addSilence` has done. -/
theorem Block.addSilence_of_ok (tp : TimePkg) (now : Int) (b : Block)
    (value : GoString) (options : Slice GoString)
    (h : (b.addSilence tp now value options).2 = none) :
    b.Silence = none ∧
    ∃ d onchange, tp.ParseDuration value = .ok d ∧
      optionLoop options.elems false = .ok onchange ∧
      (b.addSilence tp now value options).1 =
        { b with
          Silence := some ⟨if !onchange then timeAdd now (negDuration d) else now, d⟩ } := by
  unfold Block.addSilence at h ⊢
  cases hs : b.Silence with
  | some s0 => rw [hs] at h; simp at h
  | none =>
    rw [hs] at h
    simp only at h ⊢
    cases hp : tp.ParseDuration value with
    | error err => rw [hp] at h; simp at h
    | ok d =>
      rw [hp] at h
      simp only at h ⊢
      cases ho : optionLoop options.elems false with
      | error e => rw [ho] at h; simp at h
      | ok onchange => exact ⟨trivial, d, onchange, rfl, rfl, rfl⟩

/-- C12: on a Block with no Silence set, for a value that does not parse as a
duration, `addSilence` fails for every options list with the error text
that carries the offending literal and the text of the parse failure; the
Block is unchanged, its Silence still unset. -/
theorem Block.addSilence_parse_error (tp : TimePkg) (now : Int) (b : Block)
    (value : GoString) (options : Slice GoString) (err : GoString)
    (hs : b.Silence = none) (hp : tp.ParseDuration value = .error err) :
    b.addSilence tp now value options =
        (b, some (str "can\x27t parse duration \x60" ++ value ++ str "\x60: " ++ err)) ∧
      (b.addSilence tp now value options).1.Silence = none := by
  have h : b.addSilence tp now value options =
      (b, some (str "can\x27t parse duration \x60" ++ value ++ str "\x60: " ++ err)) := by
    unfold Block.addSilence
    rw [hs]
    simp only [hp]
  exact ⟨h, by rw [h]; exact hs⟩

/-- An instance of C12: the value `soon`, with an unknown option. -/
theorem Block.addSilence_parse_error_witness :
    Block.zero.Silence = none ∧
    Block.zero.addSilence sampleTime 50 (str "soon") (.mk [str "+bogus"]) =
      (Block.zero,
        some (str "can\x27t parse duration \x60soon\x60: time: invalid duration \x22soon\x22")) :=
  ⟨rfl,
    ((Block.addSilence_parse_error sampleTime 50 Block.zero (str "soon")
      (.mk [str "+bogus"]) (str "time: invalid duration \x22soon\x22") rfl rfl).1).trans
      (by decide)⟩

/-- C13, amended: after every successful `addSilence(value, options)` the
duration of the Silence is the duration that `value` parses to, of either
sign; when that duration is non-negative, `last` is not later than the clock
reading at the call. -/
theorem Block.addSilence_duration (tp : TimePkg) (now : Int) (b : Block)
    (value : GoString) (options : Slice GoString)
    (hok : (b.addSilence tp now value options).2 = none) :
    ∃ d s, tp.ParseDuration value = .ok d ∧
      (b.addSilence tp now value options).1.Silence = some s ∧
      s.duration = d ∧
      (0 ≤ d → 0 ≤ s.duration ∧ s.last ≤ now) := by
  obtain ⟨_, d, onchange, hp, _, hb⟩ := Block.addSilence_of_ok tp now b value options hok
  have hr := tp.inRange value d hp
  refine ⟨d, _, hp, by rw [hb], rfl, ?_⟩
  intro hd
  refine ⟨hd, ?_⟩
  have hlt : minDuration < d := by
    unfold minDuration
    omega
  cases onchange with
  | true => simp
  | false =>
    simp only [Bool.not_false, if_true, timeAdd, negDuration_eq d hlt hr.2]
    omega

/-- An instance of C13: a silence of ten seconds declared at time 50. -/
theorem Block.addSilence_duration_witness :
    (Block.zero.addSilence sampleTime 50 (str "10s") .nil).2 = none ∧
    ∃ d s, sampleTime.ParseDuration (str "10s") = .ok d ∧
      (Block.zero.addSilence sampleTime 50 (str "10s") .nil).1.Silence = some s ∧
      s.duration = d ∧
      (0 ≤ d → 0 ≤ s.duration ∧ s.last ≤ 50) :=
  ⟨by decide,
    Block.addSilence_duration sampleTime 50 Block.zero (str "10s") .nil (by decide)⟩

/-- The claim C13 as stated fails: `addSilence("-10s", [])` succeeds, and the
Silence it sets has the negative duration of minus ten seconds and a `last`
ten seconds after the clock reading. -/
theorem Block.addSilence_negative_counterexample :
    sampleTime.ParseDuration (str "-10s") = .ok (-10000000000) ∧
    Block.zero.addSilence sampleTime 50 (str "-10s") .nil =
      ({ Block.zero with Silence := some ⟨50 + 10000000000, -10000000000⟩ }, none) ∧
    ¬ (0 : Int) ≤ -10000000000 ∧
    ¬ (50 + 10000000000 : Int) ≤ 50 :=
  ⟨rfl, by decide, by decide, by decide⟩

/-- C16: on a Block with no Silence set and for a value that parses as a
duration, `addSilence(value, options)` succeeds exactly when every option
equals "+onchange"; otherwise it fails with "unknown option: " followed by the
first option in list order that is not "+onchange", and the Block is
unchanged, its Silence still unset. -/
theorem Block.addSilence_options (tp : TimePkg) (now : Int) (b : Block)
    (value : GoString) (d : Int) (options : Slice GoString)
    (hs : b.Silence = none) (hp : tp.ParseDuration value = .ok d) :
    ((b.addSilence tp now value options).2 = none ↔
      ∀ o ∈ options.elems, o = str "+onchange") ∧
    (∀ t, options.elems.find? (fun o => decide (o ≠ str "+onchange")) = some t →
      b.addSilence tp now value options = (b, some (str "unknown option: " ++ t)) ∧
      (b.addSilence tp now value options).1.Silence = none) := by
  have hbad : ∀ t, options.elems.find? (fun o => decide (o ≠ str "+onchange")) = some t →
      b.addSilence tp now value options = (b, some (str "unknown option: " ++ t)) := by
    intro t ht
    unfold Block.addSilence
    rw [hs]
    simp only [hp, optionLoop_bad options.elems false t ht]
  constructor
  · constructor
    · intro hok
      cases hf : options.elems.find? (fun o => decide (o ≠ str "+onchange")) with
      | none => exact optionLoop_find_none options.elems hf
      | some t =>
        rw [hbad t hf] at hok
        exact absurd hok (by simp)
    · intro hall
      unfold Block.addSilence
      rw [hs]
      simp only [hp, optionLoop_all options.elems false hall]
  · intro t ht
    exact ⟨hbad t ht, by rw [hbad t ht]; exact hs⟩

/-- An instance of C16: ten seconds with the options "+onchange", "+bogus". -/
theorem Block.addSilence_options_witness :
    Block.zero.Silence = none ∧
    sampleTime.ParseDuration (str "10s") = .ok 10000000000 ∧
    (Slice.mk [str "+onchange", str "+bogus"]).elems.find?
        (fun o => decide (o ≠ str "+onchange")) = some (str "+bogus") ∧
    Block.zero.addSilence sampleTime 50 (str "10s") (.mk [str "+onchange", str "+bogus"]) =
      (Block.zero, some (str "unknown option: +bogus")) :=
  ⟨rfl, rfl, by decide,
    (((Block.addSilence_options sampleTime 50 Block.zero (str "10s") 10000000000
      (.mk [str "+onchange", str "+bogus"]) rfl rfl).2 (str "+bogus") (by decide)).1).trans
      (by decide)⟩

/-! ## Sequences of addPrep and addBlock calls -/

/-- C14, amended: after any sequence of `addPrep` calls on the zero Block,
every Prep of the Preps list has the command string of one of the calls, as it
was passed (no check is made on it); so every Prep has a non-empty Command
when every call was given a non-empty command. -/
theorem Block.addPreps_commands (calls : List (GoString × Slice GoString)) :
    (∀ p ∈ (Block.zero.addPreps calls).1.Preps.elems, ∃ c ∈ calls, p.Command = c.1) ∧
    ((∀ c ∈ calls, c.1 ≠ []) →
      ∀ p ∈ (Block.zero.addPreps calls).1.Preps.elems, p.Command ≠ []) := by
  have h : ∀ p ∈ (Block.zero.addPreps calls).1.Preps.elems,
      ∃ c ∈ calls, p.Command = c.1 := by
    intro p hp
    rcases Block.addPreps_command Block.zero calls p hp with h0 | h0
    · exact absurd h0 (List.not_mem_nil p)
    · exact h0
  refine ⟨h, ?_⟩
  intro hne p hp
  obtain ⟨c, hc, heq⟩ := h p hp
  rw [heq]
  exact hne c hc

/-- An instance of C14: of three calls with non-empty commands, the second of
which fails, two Preps result, both with a non-empty Command. -/
theorem Block.addPreps_commands_witness :
    (∀ c ∈ samplePrepCalls, c.1 ≠ []) ∧
    (Block.zero.addPreps samplePrepCalls).1.Preps.elems =
      [⟨str "make build", false⟩, ⟨str "make test", true⟩] ∧
    ∀ p ∈ (Block.zero.addPreps samplePrepCalls).1.Preps.elems, p.Command ≠ [] :=
  ⟨by decide, by decide, (Block.addPreps_commands samplePrepCalls).2 (by decide)⟩

/-- The claim C14 as stated fails: `addPrep("", [])` on the zero Block
succeeds and appends a Prep whose Command is the empty string. -/
theorem Block.addPrep_empty_command_counterexample :
    Block.zero.addPreps [([], .nil)] =
      ({ Block.zero with Preps := .mk [⟨[], false⟩] }, [none]) ∧
    ∃ p ∈ (Block.zero.addPreps [([], .nil)]).1.Preps.elems, p.Command = [] :=
  ⟨by decide, ⟨[], false⟩, by decide, rfl⟩

theorem Config.addBlock_eq (c : Config) (b : Block) :
    c.addBlock b = { c with Blocks := .mk (c.Blocks.elems ++ [b]) } := by
  unfold Config.addBlock
  cases hb : c.Blocks with
  | nil => simp [Slice.isNil, Slice.append, Slice.elems]
  | mk l => simp [Slice.isNil, Slice.append, Slice.elems, hb]

theorem Config.addBlocks_eq (c : Config) (bs : List Block) :
    (c.addBlocks bs).Blocks.elems = c.Blocks.elems ++ bs ∧
      (c.addBlocks bs).vars = c.vars := by
  induction bs generalizing c with
  | nil => simp [Config.addBlocks]
  | cons b bs ih =>
    have h := ih (c.addBlock b)
    rw [Config.addBlock_eq] at h
    simp only [Config.addBlocks, List.foldl_cons] at h ⊢
    rw [Config.addBlock_eq]
    constructor
    · rw [h.1]; simp [Slice.elems]
    · rw [h.2]

/-- C15: `addBlock(b)` has no error result and makes no check: on every
Config (a nil Blocks list included) the new Blocks sequence is the old one
followed by `b`, stored as given, the length grows by one and the variable
table is unchanged; after a sequence of `addBlock` calls on the zero Config,
Blocks is the sequence of the blocks in call order. -/
theorem Config.addBlock_appends (c : Config) (b : Block) :
    (c.addBlock b).Blocks = .mk (c.Blocks.elems ++ [b]) ∧
    (c.addBlock b).Blocks.len = c.Blocks.len + 1 ∧
    (c.addBlock b).vars = c.vars ∧
    (∀ bs : List Block, (c.addBlocks bs).Blocks.elems = c.Blocks.elems ++ bs) ∧
    ∀ bs : List Block, (Config.zero.addBlocks bs).Blocks.elems = bs := by
  rw [Config.addBlock_eq]
  refine ⟨rfl, ?_, rfl, fun bs => (Config.addBlocks_eq c bs).1, fun bs => ?_⟩
  · simp [Slice.len, Slice.elems]
  · rw [(Config.addBlocks_eq Config.zero bs).1]
    rfl

/-- An instance of C15: the two sample blocks added to the zero Config. -/
theorem Config.addBlock_appends_witness :
    (Config.zero.addBlock sampleBlockA).Blocks = .mk [sampleBlockA] ∧
    (Config.zero.addBlocks [sampleBlockA, sampleBlockB]).Blocks.elems =
      [sampleBlockA, sampleBlockB] :=
  ⟨(Config.addBlock_appends Config.zero sampleBlockA).1,
    (Config.addBlock_appends Config.zero sampleBlockA).2.2.2.2 [sampleBlockA, sampleBlockB]⟩

/-! ## What CommonExcludes and addBlock leave alone -/

theorem CommonExcludes.body_frame (excludes : Slice GoString) (b : Block) :
    (CommonExcludes.body excludes b).Include = b.Include ∧
    (CommonExcludes.body excludes b).NoCommonFilter = b.NoCommonFilter ∧
    (CommonExcludes.body excludes b).InDir = b.InDir ∧
    (CommonExcludes.body excludes b).Daemons = b.Daemons ∧
    (CommonExcludes.body excludes b).Preps = b.Preps ∧
    (CommonExcludes.body excludes b).Silence = b.Silence := by
  unfold CommonExcludes.body
  split <;> simp

theorem Config.CommonExcludes_vars (c : Config) (excludes : Slice GoString) :
    (c.CommonExcludes excludes).vars = c.vars := by
  rw [Config.CommonExcludes_eq]
  cases c.Blocks <;> rfl

theorem Config.CommonExcludes_patterns (c : Config) (excludes : Slice GoString)
    (p : GoString) :
    (∃ b ∈ (c.CommonExcludes excludes).Blocks.elems, p ∈ b.Include.elems) ↔
      ∃ b ∈ c.Blocks.elems, p ∈ b.Include.elems := by
  rw [Config.CommonExcludes_elems]
  constructor
  · rintro ⟨b1, hb1, hp⟩
    obtain ⟨b, hb, rfl⟩ := List.mem_map.mp hb1
    rw [(CommonExcludes.body_frame excludes b).1] at hp
    exact ⟨b, hb, hp⟩
  · rintro ⟨b, hb, hp⟩
    refine ⟨CommonExcludes.body excludes b, List.mem_map.mpr ⟨b, hb, rfl⟩, ?_⟩
    rw [(CommonExcludes.body_frame excludes b).1]
    exact hp

/-- On values: `Config.CommonExcludes` changes Exclude lists only; the other
fields of every Block, the variable table and the include patterns are as
before. -/
theorem Config.CommonExcludes_frame (c : Config) (excludes : Slice GoString)
    (ord1 ord2 : RangeOrder Bool) (ordv1 ordv2 : RangeOrder GoString) :
    (c.CommonExcludes excludes).Blocks.len = c.Blocks.len ∧
    (∀ (i : Nat) (b : Block), c.Blocks.elems[i]? = some b →
      ∃ b1, (c.CommonExcludes excludes).Blocks.elems[i]? = some b1 ∧
        b1.Include = b.Include ∧ b1.NoCommonFilter = b.NoCommonFilter ∧
        b1.InDir = b.InDir ∧ b1.Daemons = b.Daemons ∧ b1.Preps = b.Preps ∧
        b1.Silence = b.Silence) ∧
    (c.CommonExcludes excludes).vars = c.vars ∧
    (∀ q, ((c.CommonExcludes excludes).GetVariables ordv1).lookup q =
      (c.GetVariables ordv2).lookup q) ∧
    (c.CommonExcludes excludes).IncludePatterns ord1 = c.IncludePatterns ord2 := by
  refine ⟨?_, ?_, Config.CommonExcludes_vars c excludes, ?_, ?_⟩
  · simp [Slice.len, Config.CommonExcludes_elems]
  · intro i b hb
    exact ⟨CommonExcludes.body excludes b, Config.CommonExcludes_at c excludes i b hb,
      CommonExcludes.body_frame excludes b⟩
  · intro q
    rw [Config.GetVariables_lookup, Config.GetVariables_lookup]
    unfold Config.lookupVariable
    rw [Config.CommonExcludes_vars]
  · exact Config.IncludePatterns_congr ord1 ord2 _ _
      (Config.CommonExcludes_patterns c excludes)

theorem Config.addBlock_patterns (c : Config) (b : Block) (p : GoString) :
    (∃ b1 ∈ (c.addBlock b).Blocks.elems, p ∈ b1.Include.elems) ↔
      (∃ b0 ∈ c.Blocks.elems, p ∈ b0.Include.elems) ∨ p ∈ b.Include.elems := by
  rw [Config.addBlock_eq]
  simp only [Slice.elems, List.mem_append, List.mem_singleton]
  constructor
  · rintro ⟨b1, hb1 | hb1, hp⟩
    · exact Or.inl ⟨b1, hb1, hp⟩
    · rw [hb1] at hp; exact Or.inr hp
  · rintro (⟨b0, hb0, hp⟩ | hp)
    · exact ⟨b0, Or.inl hb0, hp⟩
    · exact ⟨b, Or.inr rfl, hp⟩

/-- C18: `IncludePatterns()` after `addBlock(b)` is the sorted, duplicate-free
list of the elements of the previous `IncludePatterns()` together with
`b.Include`; it is unchanged when every pattern of `b.Include` already occurs
in some Block, and its length never decreases. -/
theorem Config.IncludePatterns_addBlock (c : Config) (b : Block)
    (ord1 ord2 : RangeOrder Bool) :
    ((c.addBlock b).IncludePatterns ord1).elems =
      sortStrings ((c.IncludePatterns ord2).elems ++ b.Include.elems).dedup ∧
    List.Sorted GoString.Le ((c.addBlock b).IncludePatterns ord1).elems ∧
    ((c.addBlock b).IncludePatterns ord1).elems.Nodup ∧
    (∀ p, p ∈ ((c.addBlock b).IncludePatterns ord1).elems ↔
      p ∈ (c.IncludePatterns ord2).elems ∨ p ∈ b.Include.elems) ∧
    ((∀ p ∈ b.Include.elems, ∃ b0 ∈ c.Blocks.elems, p ∈ b0.Include.elems) →
      (c.addBlock b).IncludePatterns ord1 = c.IncludePatterns ord2) ∧
    (c.IncludePatterns ord2).len ≤ ((c.addBlock b).IncludePatterns ord1).len := by
  have hmem : ∀ p, p ∈ ((c.addBlock b).IncludePatterns ord1).elems ↔
      p ∈ (c.IncludePatterns ord2).elems ∨ p ∈ b.Include.elems := by
    intro p
    rw [Config.IncludePatterns_mem, Config.IncludePatterns_mem, Config.addBlock_patterns]
  have hnd := Config.IncludePatterns_nodup ord1 (c.addBlock b)
  have hso := Config.IncludePatterns_sorted ord1 (c.addBlock b)
  refine ⟨?_, hso, hnd, hmem, ?_, ?_⟩
  · apply sortStrings_unique _ _ _ hso
    rw [List.perm_ext_iff_of_nodup hnd (List.nodup_dedup _)]
    intro p
    rw [hmem p, List.mem_dedup, List.mem_append]
  · intro hsub
    apply Config.IncludePatterns_congr
    intro p
    rw [Config.addBlock_patterns]
    constructor
    · rintro (h | h)
      · exact h
      · exact hsub p h
    · intro h; exact Or.inl h
  · unfold Slice.len
    apply List.Subperm.length_le
    apply List.Nodup.subperm (Config.IncludePatterns_nodup ord2 c)
    intro p hp
    exact (hmem p).mpr (Or.inl hp)

/-- An instance of C18: adding the sample block B to a Config that already
holds both sample blocks changes nothing. -/
theorem Config.IncludePatterns_addBlock_witness :
    (∀ p ∈ sampleBlockB.Include.elems,
      ∃ b0 ∈ sampleConfigAB.Blocks.elems, p ∈ b0.Include.elems) ∧
    (sampleConfigAB.addBlock sampleBlockB).IncludePatterns (RangeOrder.stored Bool) =
      sampleConfigAB.IncludePatterns (RangeOrder.reversed Bool) :=
  ⟨by decide,
    (Config.IncludePatterns_addBlock sampleConfigAB sampleBlockB (RangeOrder.stored Bool)
      (RangeOrder.reversed Bool)).2.2.2.2.1 (by decide)⟩

/-! ## When CommonExcludes is idempotent -/

theorem CommonExcludes.body_idem_iff (excludes : Slice GoString) (b : Block) :
    CommonExcludes.body excludes (CommonExcludes.body excludes b) =
        CommonExcludes.body excludes b ↔
      excludes.elems = [] ∨ b.NoCommonFilter = true := by
  constructor
  · intro h
    cases hf : b.NoCommonFilter with
    | true => exact Or.inr rfl
    | false =>
      left
      have hf1 : (CommonExcludes.body excludes b).NoCommonFilter = false := by
        rw [(CommonExcludes.body_frame excludes b).2.1, hf]
      have h2 := congrArg (fun x => x.Exclude.elems.length) h
      simp only [CommonExcludes.body_Exclude excludes _ hf1,
        CommonExcludes.body_Exclude excludes b hf, List.length_append] at h2
      exact List.length_eq_zero.mp (by omega)
  · rintro (h | h)
    · unfold CommonExcludes.body
      simp [h, Slice.append]
    · unfold CommonExcludes.body
      simp [h]

theorem Config.CommonExcludes_twice_Blocks (c : Config) (excludes : Slice GoString) :
    ((c.CommonExcludes excludes).CommonExcludes excludes).Blocks =
        (c.CommonExcludes excludes).Blocks ↔
      ∀ b ∈ c.Blocks.elems,
        CommonExcludes.body excludes (CommonExcludes.body excludes b) =
          CommonExcludes.body excludes b := by
  rw [Config.CommonExcludes_eq (c.CommonExcludes excludes),
    Config.CommonExcludes_eq c excludes]
  cases hb : c.Blocks with
  | nil => simp [hb, Slice.elems]
  | mk blocks =>
    simp only [Slice.elems, Slice.mk.injEq, List.map_map]
    constructor
    · intro h b hbm
      have := (List.map_inj_left.mp h) b hbm
      simpa using this
    · intro h
      apply List.map_inj_left.mpr
      intro b hbm
      simpa using h b hbm

/-- C19: applying `CommonExcludes(excludes)` twice leaves the same Blocks as
applying it once exactly when `excludes` is empty or every Block has
NoCommonFilter true; removing the duplicates from a non-empty `excludes` does
not make the operation idempotent on a Config with a Block that takes part in
the common filter. -/
theorem Config.CommonExcludes_idempotent_iff (c : Config) (excludes : Slice GoString) :
    (((c.CommonExcludes excludes).CommonExcludes excludes).Blocks =
        (c.CommonExcludes excludes).Blocks ↔
      excludes.elems = [] ∨ ∀ b ∈ c.Blocks.elems, b.NoCommonFilter = true) ∧
    (excludes.elems ≠ [] → (∃ b ∈ c.Blocks.elems, b.NoCommonFilter = false) →
      ((c.CommonExcludes (.mk excludes.elems.dedup)).CommonExcludes
          (.mk excludes.elems.dedup)).Blocks ≠
        (c.CommonExcludes (.mk excludes.elems.dedup)).Blocks) := by
  have key : ∀ e : Slice GoString,
      ((c.CommonExcludes e).CommonExcludes e).Blocks = (c.CommonExcludes e).Blocks ↔
        e.elems = [] ∨ ∀ b ∈ c.Blocks.elems, b.NoCommonFilter = true := by
    intro e
    rw [Config.CommonExcludes_twice_Blocks]
    constructor
    · intro h
      by_cases he : e.elems = []
      · exact Or.inl he
      · right
        intro b hb
        rcases (CommonExcludes.body_idem_iff e b).mp (h b hb) with h1 | h1
        · exact absurd h1 he
        · exact h1
    · rintro (h | h) b hb
      · exact (CommonExcludes.body_idem_iff e b).mpr (Or.inl h)
      · exact (CommonExcludes.body_idem_iff e b).mpr (Or.inr (h b hb))
  refine ⟨key excludes, ?_⟩
  intro hne hex heq
  rcases (key (.mk excludes.elems.dedup)).mp heq with h | h
  · exact hne (List.dedup_eq_nil _ |>.mp h)
  · obtain ⟨b, hb, hf⟩ := hex
    rw [h b hb] at hf
    exact Bool.noConfusion hf

/-- An instance of C19: the single exclude `*.tmp`, which has no duplicate, on
the sample blocks, one of which takes part in the common filter. -/
theorem Config.CommonExcludes_idempotent_iff_witness :
    (Slice.mk [str "*.tmp"]).elems ≠ [] ∧
    (∃ b ∈ sampleConfigAB.Blocks.elems, b.NoCommonFilter = false) ∧
    (Slice.mk [str "*.tmp"]).elems.dedup = [str "*.tmp"] ∧
    ((sampleConfigAB.CommonExcludes (.mk (Slice.mk [str "*.tmp"]).elems.dedup)).CommonExcludes
        (.mk (Slice.mk [str "*.tmp"]).elems.dedup)).Blocks ≠
      (sampleConfigAB.CommonExcludes (.mk (Slice.mk [str "*.tmp"]).elems.dedup)).Blocks :=
  ⟨by decide, by decide, by decide,
    (Config.CommonExcludes_idempotent_iff sampleConfigAB (.mk [str "*.tmp"])).2
      (by decide) (by decide)⟩

/-! ## CommonExcludes on slices that share an array -/

/-- C8, evaluated where the claim fails: two blocks take part in the common
filter, their Exclude slices are `base[:1]` and `base[:2]` of one array with
spare capacity, holding `a` and `a`, `b`.  `CommonExcludes` with the one
exclude `x` stores `x` behind `a` for the first block, which overwrites the
`b` of the second; the second Exclude ends as `a`, `x`, `x` and not as its
old elements followed by `x`. -/
theorem MemConfig.CommonExcludes_shared_array (g : GrowPolicy) :
    (sampleConfig4.view sampleHeap4).Blocks.elems.map
        (fun b => (b.NoCommonFilter, b.Exclude.elems)) =
      [(false, [str "a"]), (false, [str "a", str "b"])] ∧
    sampleHeap4.read sampleExcludesX = [str "x"] ∧
    ((sampleConfig4.CommonExcludes g sampleHeap4 sampleExcludesX).2.view
        (sampleConfig4.CommonExcludes g sampleHeap4 sampleExcludesX).1
      ).Blocks.elems.map (fun b => b.Exclude.elems) =
      [[str "a", str "x"], [str "a", str "x", str "x"]] ∧
    [str "a", str "x", str "x"] ≠ [str "a", str "b"] ++ [str "x"] :=
  ⟨rfl, rfl, rfl, by decide⟩

/-- The state after one call of `CommonExcludes` with the excludes `x`, `y` on
the two blocks that share the first array of `sampleHeap8`. -/
theorem MemConfig.CommonExcludes_sample8 (g : GrowPolicy) :
    sampleConfig8.CommonExcludes g sampleHeap8 sampleExcludesXY =
      ([[str "a", str "x", str "x", str "y", [], [], [], []], [str "x", str "y"],
          [str "x", str "y", str "x", str "y"]],
        ⟨.mk [{ MemBlock.zero with Exclude := .ref 0 0 3 8 },
            { MemBlock.zero with Exclude := .ref 0 0 4 8 }], none⟩) :=
  rfl

/-- C9, evaluated where the claim fails: on two Exclude slices `base[:1]` and
`base[:2]` of one array with spare capacity, two calls of `CommonExcludes`
with the excludes `x`, `y` and one call with `x`, `y`, `x`, `y` leave different
Exclude lists, and neither leaves the first block with its old `a` followed
by `x`, `y`, `x`, `y`. -/
theorem MemConfig.CommonExcludes_twice_shared_array (g : GrowPolicy) :
    (sampleConfig8.view sampleHeap8).Blocks.elems.map
        (fun b => (b.NoCommonFilter, b.Exclude.elems)) =
      [(false, [str "a"]), (false, [str "a", str "b"])] ∧
    sampleHeap8.read sampleExcludesXY = [str "x", str "y"] ∧
    sampleHeap8.read sampleExcludesXYXY =
      sampleHeap8.read sampleExcludesXY ++ sampleHeap8.read sampleExcludesXY ∧
    (((sampleConfig8.CommonExcludes g sampleHeap8 sampleExcludesXY).2.CommonExcludes g
          (sampleConfig8.CommonExcludes g sampleHeap8 sampleExcludesXY).1
          sampleExcludesXY).2.view
        ((sampleConfig8.CommonExcludes g sampleHeap8 sampleExcludesXY).2.CommonExcludes g
          (sampleConfig8.CommonExcludes g sampleHeap8 sampleExcludesXY).1
          sampleExcludesXY).1).Blocks.elems.map (fun b => b.Exclude.elems) =
      [[str "a", str "x", str "x", str "x", str "x"],
        [str "a", str "x", str "x", str "x", str "x", str "y"]] ∧
    ((sampleConfig8.CommonExcludes g sampleHeap8 sampleExcludesXYXY).2.view
        (sampleConfig8.CommonExcludes g sampleHeap8 sampleExcludesXYXY).1
      ).Blocks.elems.map (fun b => b.Exclude.elems) =
      [[str "a", str "x", str "x", str "y", str "x"],
        [str "a", str "x", str "x", str "y", str "x", str "y"]] ∧
    [str "a", str "x", str "x", str "x", str "x"] ≠
      [str "a"] ++ [str "x", str "y"] ++ [str "x", str "y"] ∧
    [str "a", str "x", str "x", str "x", str "x"] ≠
      [str "a", str "x", str "x", str "y", str "x"] :=
  ⟨rfl, rfl, rfl, by rw [MemConfig.CommonExcludes_sample8]; rfl, rfl, by decide, by decide⟩

/-- C17, evaluated where the claim fails: one block takes part in the common
filter, its Exclude is `base[:1]` and its Include is `base[1:2]` of the array
`a`, `b`.  `CommonExcludes` with the one exclude `x` stores `x` in the place of
`b`: the Include of the block changes from `b` to `x`, and so does
`IncludePatterns()`. -/
theorem MemConfig.CommonExcludes_shared_include (g : GrowPolicy) :
    (sampleConfig2.view sampleHeap2).Blocks.elems.map
        (fun b => (b.NoCommonFilter, b.Include.elems, b.Exclude.elems)) =
      [(false, [str "b"], [str "a"])] ∧
    sampleHeap2.read sampleExcludesX = [str "x"] ∧
    ((sampleConfig2.CommonExcludes g sampleHeap2 sampleExcludesX).2.view
        (sampleConfig2.CommonExcludes g sampleHeap2 sampleExcludesX).1
      ).Blocks.elems.map (fun b => (b.Include.elems, b.Exclude.elems)) =
      [([str "x"], [str "a", str "x"])] ∧
    ((sampleConfig2.view sampleHeap2).IncludePatterns (RangeOrder.stored Bool)).elems =
      [str "b"] ∧
    (((sampleConfig2.CommonExcludes g sampleHeap2 sampleExcludesX).2.view
        (sampleConfig2.CommonExcludes g sampleHeap2 sampleExcludesX).1
      ).IncludePatterns (RangeOrder.stored Bool)).elems = [str "x"] ∧
    [str "x"] ≠ [str "b"] :=
  ⟨rfl, rfl, rfl, by decide, by rfl, by decide⟩

/-! ## CommonExcludes on slices without spare capacity

When no Exclude slice that is appended to has spare capacity, every `append`
allocates a new array and no existing array is written: `CommonExcludes` on
the stored Config then computes what `Config.CommonExcludes` computes on
values. -/

theorem MemCommonExcludes.foldl_eq_run (g : GrowPolicy) (excludes : StrSlice)
    (pre : List MemBlock) (h : Heap) (blocks : List MemBlock) :
    (List.range' pre.length blocks.length).foldl (MemCommonExcludes.step g excludes)
        (h, pre ++ blocks) =
      ((MemCommonExcludes.run g excludes h blocks).1,
        pre ++ (MemCommonExcludes.run g excludes h blocks).2) := by
  induction blocks generalizing pre h with
  | nil => simp [MemCommonExcludes.run]
  | cons b bs ih =>
    have hget : (pre ++ b :: bs).get? pre.length = some b := by
      rw [List.get?_eq_getElem?, List.getElem?_append_right (Nat.le_refl _)]
      simp
    have hset : ∀ x, (pre ++ b :: bs).set pre.length x = (pre ++ [x]) ++ bs := by
      intro x
      rw [List.set_append_right _ _ (Nat.le_refl _)]
      simp
    rw [List.length_cons, List.range'_succ, List.foldl_cons]
    simp only [MemCommonExcludes.step, hget, hset]
    have hlen : pre.length + 1 = (pre ++ [(MemCommonExcludes.body g excludes h b).2]).length := by
      simp
    rw [hlen, ih]
    simp [MemCommonExcludes.run]

/-- The index loop of `CommonExcludes` takes the blocks one after the other,
each from the heap the one before has left. -/
theorem MemConfig.CommonExcludes_eq_run (g : GrowPolicy) (h : Heap) (c : MemConfig)
    (excludes : StrSlice) :
    c.CommonExcludes g h excludes =
      match c.Blocks with
      | .nil => (h, c)
      | .mk blocks =>
        ((MemCommonExcludes.run g excludes h blocks).1,
          { c with Blocks := .mk (MemCommonExcludes.run g excludes h blocks).2 }) := by
  unfold MemConfig.CommonExcludes
  cases hb : c.Blocks with
  | nil => rfl
  | mk blocks =>
    have := MemCommonExcludes.foldl_eq_run g excludes [] h blocks
    simp only [List.length_nil, List.nil_append] at this
    simp only [List.range_eq_range', this]

theorem StrSlice.validIn_ref (h : Heap) (arr off len cap : Nat)
    (hv : (StrSlice.ref arr off len cap).validIn h = true) :
    arr < h.length ∧ len ≤ cap ∧ off + cap ≤ (h.getD arr []).length := by
  simpa [StrSlice.validIn, and_assoc] using hv

theorem Heap.read_append (h ex : Heap) (s : StrSlice) (hv : s.validIn h = true) :
    Heap.read (h ++ ex) s = Heap.read h s := by
  cases s with
  | nil => rfl
  | ref arr off len cap =>
    obtain ⟨ha, _, _⟩ := StrSlice.validIn_ref h arr off len cap hv
    simp only [Heap.read, List.getD_append h ex [] arr ha]

theorem StrSlice.validIn_append (h ex : Heap) (s : StrSlice) (hv : s.validIn h = true) :
    s.validIn (h ++ ex) = true := by
  cases s with
  | nil => rfl
  | ref arr off len cap =>
    obtain ⟨ha, hl, hc⟩ := StrSlice.validIn_ref h arr off len cap hv
    simp only [StrSlice.validIn, List.getD_append h ex [] arr ha, List.length_append,
      Bool.and_eq_true, decide_eq_true_eq]
    exact ⟨⟨by omega, hl⟩, hc⟩

theorem StrSlice.view_append (h ex : Heap) (s : StrSlice) (hv : s.validIn h = true) :
    s.view (h ++ ex) = s.view h := by
  cases s with
  | nil => rfl
  | ref arr off len cap =>
    simp only [StrSlice.view, Heap.read_append h ex _ hv]

theorem StrSlice.view_elems (h : Heap) (s : StrSlice) : (s.view h).elems = h.read s := by
  cases s <;> rfl

theorem Heap.read_length (h : Heap) (s : StrSlice) (hv : s.validIn h = true) :
    (h.read s).length = s.len := by
  cases s with
  | nil => rfl
  | ref arr off len cap =>
    obtain ⟨_, hl, hc⟩ := StrSlice.validIn_ref h arr off len cap hv
    simp only [Heap.read, StrSlice.len, List.length_take, List.length_drop]
    omega

theorem MemBlock.block_validIn_append (h ex : Heap) (b : MemBlock) (hv : b.validIn h = true) :
    b.validIn (h ++ ex) = true := by
  simp only [MemBlock.validIn, Bool.and_eq_true] at hv ⊢
  exact ⟨StrSlice.validIn_append h ex _ hv.1, StrSlice.validIn_append h ex _ hv.2⟩

theorem MemBlock.block_view_append (h ex : Heap) (b : MemBlock) (hv : b.validIn h = true) :
    b.view (h ++ ex) = b.view h := by
  simp only [MemBlock.validIn, Bool.and_eq_true] at hv
  simp only [MemBlock.view, StrSlice.view_append h ex _ hv.1,
    StrSlice.view_append h ex _ hv.2]

/-- The new array of an `append` that has to allocate, as a value. -/
theorem StrSlice.view_grown (g : GrowPolicy) (h : Heap) (old xs : List GoString)
    (cap : Nat) :
    (StrSlice.ref h.length 0 (old.length + xs.length)
        (g.newcap cap (old.length + xs.length))).view
      (h ++ [old ++ xs ++ List.replicate
        (g.newcap cap (old.length + xs.length) - (old.length + xs.length)) []]) =
        .mk (old ++ xs) ∧
    (StrSlice.ref h.length 0 (old.length + xs.length)
        (g.newcap cap (old.length + xs.length))).validIn
      (h ++ [old ++ xs ++ List.replicate
        (g.newcap cap (old.length + xs.length) - (old.length + xs.length)) []]) = true := by
  have hen := g.enough cap (old.length + xs.length)
  have hget : ∀ arr : List GoString, (h ++ [arr]).getD h.length [] = arr := by
    intro arr
    rw [List.getD_append_right h [arr] [] h.length (Nat.le_refl _)]
    simp
  constructor
  · simp only [StrSlice.view, Heap.read, hget, List.drop_zero, Slice.mk.injEq]
    rw [List.take_left']
    simp
  · simp only [StrSlice.validIn, hget, List.length_append, List.length_replicate,
      List.length_singleton, Bool.and_eq_true, decide_eq_true_eq]
    omega

/-- An `append` to a slice without spare capacity, as a value: the heap only
grows, and the result is the `append` on values. -/
theorem StrSlice.append_view (g : GrowPolicy) (h : Heap) (s : StrSlice)
    (xs : List GoString) (hv : s.validIn h = true) (hfull : s.len = s.cap) :
    (∃ ex, (StrSlice.append g h s xs).1 = h ++ ex) ∧
    (StrSlice.append g h s xs).2.view (StrSlice.append g h s xs).1 =
      (s.view h).append xs ∧
    (StrSlice.append g h s xs).2.validIn (StrSlice.append g h s xs).1 = true := by
  cases xs with
  | nil => exact ⟨⟨[], by simp [StrSlice.append]⟩, rfl, hv⟩
  | cons x t =>
    have hlen := Heap.read_length h s hv
    have hgrown : StrSlice.append g h s (x :: t) =
        (h ++ [h.read s ++ (x :: t) ++ List.replicate
            (g.newcap s.cap ((h.read s).length + (x :: t).length) -
              ((h.read s).length + (x :: t).length)) []],
          .ref h.length 0 ((h.read s).length + (x :: t).length)
            (g.newcap s.cap ((h.read s).length + (x :: t).length))) := by
      rw [hlen]
      cases s with
      | nil => rfl
      | ref arr off len cap =>
        have hc : len = cap := hfull
        have hno : ¬ (len + (t.length + 1) ≤ cap) := by omega
        simp only [StrSlice.append, StrSlice.len, StrSlice.cap, List.length_cons, hno,
          if_false]
    rw [hgrown]
    obtain ⟨h1, h2⟩ := StrSlice.view_grown g h (h.read s) (x :: t) s.cap
    refine ⟨⟨_, rfl⟩, ?_, h2⟩
    rw [h1]
    cases s <;> rfl

theorem MemCommonExcludes.body_view (g : GrowPolicy) (excludes : StrSlice) (h : Heap)
    (b : MemBlock) (hv : b.validIn h = true) (hs : b.noSpare = true) :
    (∃ ex, (MemCommonExcludes.body g excludes h b).1 = h ++ ex) ∧
    (MemCommonExcludes.body g excludes h b).2.view (MemCommonExcludes.body g excludes h b).1 =
      CommonExcludes.body (excludes.view h) (b.view h) ∧
    (MemCommonExcludes.body g excludes h b).2.validIn
      (MemCommonExcludes.body g excludes h b).1 = true := by
  cases hf : b.NoCommonFilter with
  | true =>
    have hb : MemCommonExcludes.body g excludes h b = (h, b) := by
      simp [MemCommonExcludes.body, hf]
    have hvb : CommonExcludes.body (excludes.view h) (b.view h) = b.view h := by
      simp [CommonExcludes.body, MemBlock.view, hf]
    rw [hb, hvb]
    exact ⟨⟨[], by simp⟩, rfl, hv⟩
  | false =>
    have hfull : b.Exclude.len = b.Exclude.cap := by
      simpa [MemBlock.noSpare, hf] using hs
    have hv2 := hv
    simp only [MemBlock.validIn, Bool.and_eq_true] at hv2
    obtain ⟨⟨ex, hex⟩, hview, hval⟩ :=
      StrSlice.append_view g h b.Exclude (h.read excludes) hv2.2 hfull
    have hb : MemCommonExcludes.body g excludes h b =
        ((StrSlice.append g h b.Exclude (h.read excludes)).1,
          { b with Exclude := (StrSlice.append g h b.Exclude (h.read excludes)).2 }) := by
      simp [MemCommonExcludes.body, hf]
    rw [hb]
    refine ⟨⟨ex, hex⟩, ?_, ?_⟩
    · simp only [MemBlock.view, hview, CommonExcludes.body, hf, Bool.not_false, if_true,
        StrSlice.view_elems]
      rw [hex, StrSlice.view_append h ex _ hv2.1]
    · simp only [MemBlock.validIn, hval, Bool.and_true]
      rw [hex]
      exact StrSlice.validIn_append h ex _ hv2.1

theorem MemCommonExcludes.run_view (g : GrowPolicy) (excludes : StrSlice) (h : Heap)
    (blocks : List MemBlock) (he : excludes.validIn h = true)
    (hv : ∀ b ∈ blocks, b.validIn h = true) (hs : ∀ b ∈ blocks, b.noSpare = true) :
    (∃ ex, (MemCommonExcludes.run g excludes h blocks).1 = h ++ ex) ∧
    (MemCommonExcludes.run g excludes h blocks).2.map
        (MemBlock.view (MemCommonExcludes.run g excludes h blocks).1) =
      (blocks.map (MemBlock.view h)).map (CommonExcludes.body (excludes.view h)) := by
  induction blocks generalizing h with
  | nil => exact ⟨⟨[], by simp [MemCommonExcludes.run]⟩, rfl⟩
  | cons b bs ih =>
    obtain ⟨⟨ex1, hex1⟩, hview1, hval1⟩ :=
      MemCommonExcludes.body_view g excludes h b (hv b (List.mem_cons_self b bs))
        (hs b (List.mem_cons_self b bs))
    have he1 : excludes.validIn (MemCommonExcludes.body g excludes h b).1 = true := by
      rw [hex1]; exact StrSlice.validIn_append h ex1 _ he
    have hv1 : ∀ b2 ∈ bs, b2.validIn (MemCommonExcludes.body g excludes h b).1 = true := by
      intro b2 hb2
      rw [hex1]
      exact MemBlock.block_validIn_append h ex1 b2 (hv b2 (List.mem_cons_of_mem b hb2))
    obtain ⟨⟨ex2, hex2⟩, hview2⟩ :=
      ih (MemCommonExcludes.body g excludes h b).1 he1 hv1
        (fun b2 hb2 => hs b2 (List.mem_cons_of_mem b hb2))
    simp only [MemCommonExcludes.run, List.map_cons]
    refine ⟨⟨ex1 ++ ex2, by rw [hex2, hex1, List.append_assoc]⟩, ?_⟩
    congr 1
    · rw [hex2, MemBlock.block_view_append _ ex2 _ hval1]
      exact hview1
    · rw [hview2, hex1, StrSlice.view_append h ex1 _ he]
      congr 1
      apply List.map_congr_left
      intro b2 hb2
      exact MemBlock.block_view_append h ex1 b2 (hv b2 (List.mem_cons_of_mem b hb2))

/-- On a stored Config whose slices are valid and in which no Exclude that is
appended to has spare capacity, `CommonExcludes` computes, read as values,
what `Config.CommonExcludes` computes on the values. -/
theorem MemConfig.CommonExcludes_view (g : GrowPolicy) (h : Heap) (c : MemConfig)
    (excludes : StrSlice) (he : excludes.validIn h = true)
    (hv : ∀ b ∈ c.Blocks.elems, b.validIn h = true)
    (hs : ∀ b ∈ c.Blocks.elems, b.noSpare = true) :
    (c.CommonExcludes g h excludes).2.view (c.CommonExcludes g h excludes).1 =
      (c.view h).CommonExcludes (excludes.view h) := by
  rw [MemConfig.CommonExcludes_eq_run, Config.CommonExcludes_eq]
  cases hb : c.Blocks with
  | nil => simp [MemConfig.view, hb]
  | mk blocks =>
    rw [hb] at hv hs
    obtain ⟨_, hview⟩ := MemCommonExcludes.run_view g excludes h blocks he hv hs
    simp only [MemConfig.view, hb, hview]

/-! ## CommonExcludes on any valid stored Config: lengths -/

theorem Heap.keeps_refl (h : Heap) : Heap.keeps h h :=
  ⟨Nat.le_refl _, fun _ _ => rfl⟩

theorem Heap.keeps_trans (h1 h2 h3 : Heap) (h12 : Heap.keeps h1 h2)
    (h23 : Heap.keeps h2 h3) : Heap.keeps h1 h3 :=
  ⟨Nat.le_trans h12.1 h23.1, fun a ha =>
    (h23.2 a (Nat.lt_of_lt_of_le ha h12.1)).trans (h12.2 a ha)⟩

theorem Heap.keeps_append (h ex : Heap) : Heap.keeps h (h ++ ex) :=
  ⟨by simp, fun a ha => by rw [List.getD_append h ex [] a ha]⟩

theorem Heap.store_length (arr : List GoString) (pos : Nat) (xs : List GoString) :
    (Heap.store arr pos xs).length = arr.length := by
  induction xs generalizing arr pos with
  | nil => rfl
  | cons x xs ih => rw [Heap.store, ih, List.length_set]

theorem Heap.keeps_set (h : Heap) (arr : Nat) (new : List GoString)
    (hlen : new.length = (h.getD arr []).length) : Heap.keeps h (h.set arr new) := by
  refine ⟨by simp, fun a ha => ?_⟩
  rw [List.getD_eq_getElem?_getD, List.getD_eq_getElem?_getD, List.getElem?_set]
  by_cases hae : arr = a
  · subst hae
    rw [if_pos rfl]
    simp only [ha, if_true, Option.getD_some]
    rw [hlen, List.getD_eq_getElem?_getD]
  · rw [if_neg hae]

theorem StrSlice.validIn_keeps (h1 h2 : Heap) (s : StrSlice) (hk : Heap.keeps h1 h2)
    (hv : s.validIn h1 = true) : s.validIn h2 = true := by
  cases s with
  | nil => rfl
  | ref arr off len cap =>
    obtain ⟨ha, hl, hc⟩ := StrSlice.validIn_ref h1 arr off len cap hv
    simp only [StrSlice.validIn, Bool.and_eq_true, decide_eq_true_eq, hk.2 arr ha]
    exact ⟨⟨Nat.lt_of_lt_of_le ha hk.1, hl⟩, hc⟩

/-- What `append` does to the heap and to the length, with or without shared
arrays: every array keeps its length, the new slice is valid, and its length
is the old length plus the number of elements added. -/
theorem StrSlice.append_keeps (g : GrowPolicy) (h : Heap) (s : StrSlice)
    (xs : List GoString) (hv : s.validIn h = true) :
    Heap.keeps h (StrSlice.append g h s xs).1 ∧
    (StrSlice.append g h s xs).2.validIn (StrSlice.append g h s xs).1 = true ∧
    (StrSlice.append g h s xs).2.len = s.len + xs.length := by
  cases xs with
  | nil => exact ⟨Heap.keeps_refl h, hv, rfl⟩
  | cons x t =>
    have hlen := Heap.read_length h s hv
    have hgrown : Heap.keeps h
          (h ++ [h.read s ++ (x :: t) ++ List.replicate
            (g.newcap s.cap (s.len + (x :: t).length) - (s.len + (x :: t).length)) []]) ∧
        (StrSlice.ref h.length 0 (s.len + (x :: t).length)
            (g.newcap s.cap (s.len + (x :: t).length))).validIn
          (h ++ [h.read s ++ (x :: t) ++ List.replicate
            (g.newcap s.cap (s.len + (x :: t).length) - (s.len + (x :: t).length)) []]) =
          true := by
      refine ⟨Heap.keeps_append h _, ?_⟩
      have := (StrSlice.view_grown g h (h.read s) (x :: t) s.cap).2
      rw [hlen] at this
      exact this
    cases s with
    | nil => exact ⟨hgrown.1, hgrown.2, rfl⟩
    | ref arr off len cap =>
      obtain ⟨ha, hl, hc⟩ := StrSlice.validIn_ref h arr off len cap hv
      by_cases hfit : len + (t.length + 1) ≤ cap
      · have hap : StrSlice.append g h (.ref arr off len cap) (x :: t) =
            (h.set arr (Heap.store (h.getD arr []) (off + len) (x :: t)),
              .ref arr off (len + (x :: t).length) cap) := by
          simp only [StrSlice.append, List.length_cons, hfit, if_true]
        rw [hap]
        have hk := Heap.keeps_set h arr (Heap.store (h.getD arr []) (off + len) (x :: t))
          (Heap.store_length _ _ _)
        refine ⟨hk, ?_, rfl⟩
        simp only [StrSlice.validIn, Bool.and_eq_true, decide_eq_true_eq, hk.2 arr ha,
          List.length_set, List.length_cons]
        exact ⟨⟨ha, hfit⟩, hc⟩
      · have hap : StrSlice.append g h (.ref arr off len cap) (x :: t) =
            (h ++ [h.read (.ref arr off len cap) ++ (x :: t) ++ List.replicate
                (g.newcap cap (len + (x :: t).length) - (len + (x :: t).length)) []],
              .ref h.length 0 (len + (x :: t).length)
                (g.newcap cap (len + (x :: t).length))) := by
          simp only [StrSlice.append, StrSlice.len, StrSlice.cap, List.length_cons, hfit,
            if_false]
        rw [hap]
        exact ⟨hgrown.1, hgrown.2, rfl⟩

theorem MemCommonExcludes.body_keeps (g : GrowPolicy) (excludes : StrSlice) (h : Heap)
    (b : MemBlock) (he : excludes.validIn h = true) (hv : b.validIn h = true) :
    Heap.keeps h (MemCommonExcludes.body g excludes h b).1 ∧
    (MemCommonExcludes.body g excludes h b).2.validIn
      (MemCommonExcludes.body g excludes h b).1 = true ∧
    (MemCommonExcludes.body g excludes h b).2.NoCommonFilter = b.NoCommonFilter ∧
    (MemCommonExcludes.body g excludes h b).2.Exclude.len =
      b.Exclude.len + (if b.NoCommonFilter = true then 0 else excludes.len) := by
  cases hf : b.NoCommonFilter with
  | true =>
    have hb : MemCommonExcludes.body g excludes h b = (h, b) := by
      simp [MemCommonExcludes.body, hf]
    rw [hb]
    exact ⟨Heap.keeps_refl h, hv, hf, by simp⟩
  | false =>
    have hv2 := hv
    simp only [MemBlock.validIn, Bool.and_eq_true] at hv2
    obtain ⟨hk, hval, hlen⟩ := StrSlice.append_keeps g h b.Exclude (h.read excludes) hv2.2
    have hb : MemCommonExcludes.body g excludes h b =
        ((StrSlice.append g h b.Exclude (h.read excludes)).1,
          { b with Exclude := (StrSlice.append g h b.Exclude (h.read excludes)).2 }) := by
      simp [MemCommonExcludes.body, hf]
    rw [hb]
    refine ⟨hk, ?_, hf, ?_⟩
    · simp only [MemBlock.validIn, hval, Bool.and_true]
      exact StrSlice.validIn_keeps h _ _ hk hv2.1
    · simp only [hlen, Heap.read_length h excludes he]
      simp

theorem MemCommonExcludes.run_keeps (g : GrowPolicy) (excludes : StrSlice) (h : Heap)
    (blocks : List MemBlock) (he : excludes.validIn h = true)
    (hv : ∀ b ∈ blocks, b.validIn h = true) :
    Heap.keeps h (MemCommonExcludes.run g excludes h blocks).1 ∧
    (∀ b ∈ (MemCommonExcludes.run g excludes h blocks).2,
      b.validIn (MemCommonExcludes.run g excludes h blocks).1 = true) ∧
    (MemCommonExcludes.run g excludes h blocks).2.map
        (fun b => (b.NoCommonFilter, b.Exclude.len)) =
      blocks.map (fun b => (b.NoCommonFilter,
        b.Exclude.len + (if b.NoCommonFilter = true then 0 else excludes.len))) := by
  induction blocks generalizing h with
  | nil => exact ⟨Heap.keeps_refl h, fun b hb => absurd hb (List.not_mem_nil b), rfl⟩
  | cons b bs ih =>
    obtain ⟨hk1, hval1, hncf1, hlen1⟩ :=
      MemCommonExcludes.body_keeps g excludes h b he (hv b (List.mem_cons_self b bs))
    have he1 := StrSlice.validIn_keeps h _ excludes hk1 he
    have hv1 : ∀ b2 ∈ bs, b2.validIn (MemCommonExcludes.body g excludes h b).1 = true := by
      intro b2 hb2
      have hb2v := hv b2 (List.mem_cons_of_mem b hb2)
      simp only [MemBlock.validIn, Bool.and_eq_true] at hb2v ⊢
      exact ⟨StrSlice.validIn_keeps h _ _ hk1 hb2v.1, StrSlice.validIn_keeps h _ _ hk1 hb2v.2⟩
    obtain ⟨hk2, hval2, hmap2⟩ := ih (MemCommonExcludes.body g excludes h b).1 he1 hv1
    simp only [MemCommonExcludes.run, List.map_cons]
    refine ⟨Heap.keeps_trans _ _ _ hk1 hk2, ?_, ?_⟩
    · intro b2 hb2
      rcases List.mem_cons.mp hb2 with hb2 | hb2
      · rw [hb2]
        simp only [MemBlock.validIn, Bool.and_eq_true] at hval1 ⊢
        exact ⟨StrSlice.validIn_keeps _ _ _ hk2 hval1.1,
          StrSlice.validIn_keeps _ _ _ hk2 hval1.2⟩
      · exact hval2 b2 hb2
    · rw [hmap2, hncf1, hlen1]

theorem MemCommonExcludes.run_id (g : GrowPolicy) (excludes : StrSlice) (h : Heap)
    (blocks : List MemBlock)
    (hid : h.read excludes = [] ∨ ∀ b ∈ blocks, b.NoCommonFilter = true) :
    MemCommonExcludes.run g excludes h blocks = (h, blocks) := by
  induction blocks with
  | nil => rfl
  | cons b bs ih =>
    have hb : MemCommonExcludes.body g excludes h b = (h, b) := by
      rcases hid with hid | hid
      · unfold MemCommonExcludes.body
        rw [hid]
        split <;> rfl
      · simp [MemCommonExcludes.body, hid b (List.mem_cons_self b bs)]
    have hrest : MemCommonExcludes.run g excludes h bs = (h, bs) := by
      apply ih
      rcases hid with hid | hid
      · exact Or.inl hid
      · exact Or.inr (fun b2 hb2 => hid b2 (List.mem_cons_of_mem b hb2))
    simp only [MemCommonExcludes.run, hb, hrest]

theorem MemBlock.view_Exclude_length (h : Heap) (b : MemBlock) (hv : b.validIn h = true) :
    (b.view h).Exclude.elems.length = b.Exclude.len := by
  simp only [MemBlock.validIn, Bool.and_eq_true] at hv
  simp only [MemBlock.view, StrSlice.view_elems, Heap.read_length h _ hv.2]

theorem MemCommonExcludes.run_view_lengths (g : GrowPolicy) (excludes : StrSlice) (h : Heap)
    (blocks : List MemBlock) (he : excludes.validIn h = true)
    (hv : ∀ b ∈ blocks, b.validIn h = true) :
    ((MemCommonExcludes.run g excludes h blocks).2.map
        (MemBlock.view (MemCommonExcludes.run g excludes h blocks).1)).map
        (fun b => b.Exclude.elems.length) =
      blocks.map (fun b =>
        b.Exclude.len + (if b.NoCommonFilter = true then 0 else excludes.len)) := by
  obtain ⟨_, hval, hmap⟩ := MemCommonExcludes.run_keeps g excludes h blocks he hv
  have h1 : ((MemCommonExcludes.run g excludes h blocks).2.map
        (MemBlock.view (MemCommonExcludes.run g excludes h blocks).1)).map
        (fun b => b.Exclude.elems.length) =
      (MemCommonExcludes.run g excludes h blocks).2.map (fun b => b.Exclude.len) := by
    rw [List.map_map]
    apply List.map_congr_left
    intro b hb
    exact MemBlock.view_Exclude_length _ b (hval b hb)
  have h2 := congrArg (List.map Prod.snd) hmap
  simp only [List.map_map] at h2
  rw [h1]
  exact h2

/-- With or without shared arrays: on a stored Config whose slices are valid,
two calls of `CommonExcludes` leave the same Blocks, read as values, as one
call exactly when `excludes` is empty or every Block has NoCommonFilter
true. -/
theorem MemConfig.CommonExcludes_idempotent_stored (g : GrowPolicy) (h : Heap)
    (c : MemConfig) (excludes : StrSlice) (he : excludes.validIn h = true)
    (hv : ∀ b ∈ c.Blocks.elems, b.validIn h = true) :
    (((c.CommonExcludes g h excludes).2.CommonExcludes g
          (c.CommonExcludes g h excludes).1 excludes).2.view
        ((c.CommonExcludes g h excludes).2.CommonExcludes g
          (c.CommonExcludes g h excludes).1 excludes).1).Blocks =
        ((c.CommonExcludes g h excludes).2.view (c.CommonExcludes g h excludes).1).Blocks ↔
      h.read excludes = [] ∨ ∀ b ∈ c.Blocks.elems, b.NoCommonFilter = true := by
  cases hb : c.Blocks with
  | nil =>
    have h1 : c.CommonExcludes g h excludes = (h, c) := by
      unfold MemConfig.CommonExcludes; rw [hb]
    rw [h1]
    simp only [h1, Slice.elems, List.not_mem_nil, false_implies, implies_true, or_true]
  | mk blocks =>
    rw [hb] at hv
    simp only [Slice.elems] at hv ⊢
    have h1 : c.CommonExcludes g h excludes =
        ((MemCommonExcludes.run g excludes h blocks).1,
          { c with Blocks := .mk (MemCommonExcludes.run g excludes h blocks).2 }) := by
      rw [MemConfig.CommonExcludes_eq_run, hb]
    rw [h1]
    simp only [MemConfig.CommonExcludes_eq_run, MemConfig.view, Slice.mk.injEq]
    obtain ⟨hk1, hval1, hmap1⟩ := MemCommonExcludes.run_keeps g excludes h blocks he hv
    have he1 := StrSlice.validIn_keeps h _ excludes hk1 he
    constructor
    · intro heq
      have hl1 := MemCommonExcludes.run_view_lengths g excludes h blocks he hv
      have hl2 := MemCommonExcludes.run_view_lengths g excludes
        (MemCommonExcludes.run g excludes h blocks).1
        (MemCommonExcludes.run g excludes h blocks).2 he1 hval1
      rw [heq, hl1] at hl2
      have hmap2 : (MemCommonExcludes.run g excludes h blocks).2.map (fun b =>
            b.Exclude.len + (if b.NoCommonFilter = true then 0 else excludes.len)) =
          blocks.map (fun b =>
            b.Exclude.len + (if b.NoCommonFilter = true then 0 else excludes.len) +
              (if b.NoCommonFilter = true then 0 else excludes.len)) := by
        have := congrArg (List.map (fun p : Bool × Nat =>
          p.2 + (if p.1 = true then 0 else excludes.len))) hmap1
        simpa only [List.map_map, Function.comp_def] using this
      rw [hmap2] at hl2
      have hall := List.map_inj_left.mp hl2
      by_cases hz : excludes.len = 0
      · left
        apply List.length_eq_zero.mp
        rw [Heap.read_length h excludes he, hz]
      · right
        intro b hbm
        have := hall b hbm
        cases hf : b.NoCommonFilter with
        | true => rfl
        | false =>
          rw [hf] at this
          simp only [Bool.false_eq_true, if_false] at this
          omega
    · intro hid
      have hr1 := MemCommonExcludes.run_id g excludes h blocks hid
      rw [hr1]
      simp only [hr1]

end Conf
